import Mathlib

set_option maxRecDepth 100000

/-!
Shallow embedding of `source/blender/blenlib/intern/BLI_ghash.c` (the chained
hash-table core compiled with `GHASH_USE_MODULO_BUCKETS`), together with
theorems checking the natural-language specification against it.

Modelling conventions:
* keys are `Nat` (opaque pointers), values are `Option Nat` (`none` models the
  `NULL` pointer value);
* the per-table callbacks `hashfp`/`cmpfp` are function fields (the eq callback
  returns `true` iff unequal, as in the C interface);
* the mempool is external per the spec, so entry allocation is pure and a
  freshly allocated record carries zeroed/`none` fields;
* free callbacks only act on caller-owned memory; where a claim talks about
  them, the model records which keys/values were handed to them;
* `BLI_assert` is a debug check compiled out under `NDEBUG`; functions whose
  claims mention asserts additionally return a `Bool` that is the conjunction
  of the evaluated assert conditions, exactly as written in the source.
-/

set_option autoImplicit false

namespace BLIGhash

/-- The `hashsizes` schedule of bucket counts (BLI_ghash.c lines 54-59). -/
def hashsizes : List Nat :=
  [5, 11, 17, 37, 67, 131, 257, 521, 1031, 2053, 4099, 8209,
   16411, 32771, 65537, 131101, 262147, 524309, 1048583, 2097169,
   4194319, 8388617, 16777259, 33554467, 67108879, 134217757,
   268435459]

/-- `GHASH_MAX_SIZE` (modulo-bucket mode): number of schedule steps. -/
def GHASH_MAX_SIZE : Nat := 27

/-- `#define GHASH_LIMIT_GROW(_nbkt) ((_nbkt) * 3) / 4` -/
def GHASH_LIMIT_GROW (nbkt : Nat) : Nat := nbkt * 3 / 4

/-- `#define GHASH_LIMIT_SHRINK(_nbkt) ((_nbkt) * 3) / 16` -/
def GHASH_LIMIT_SHRINK (nbkt : Nat) : Nat := nbkt * 3 / 16

/-- Modelled from the spec: `GHASH_FLAG_ALLOW_DUPES` comes from `BLI_ghash.h`
(not under `src/`); the spec only requires it to be a dedicated bit of the
`flags` word. -/
def GHASH_FLAG_ALLOW_DUPES : Nat := 1

/-- Modelled from the spec: `GHASH_FLAG_ALLOW_SHRINK` comes from `BLI_ghash.h`
(not under `src/`); the spec only requires it to be a dedicated bit of the
`flags` word, distinct from `GHASH_FLAG_ALLOW_DUPES`. -/
def GHASH_FLAG_ALLOW_SHRINK : Nat := 2

/-- `struct Entry`: cached full hash, key, value; the `next` link is encoded by
the position in the bucket's chain list. -/
structure Entry where
  hash : Nat
  key : Nat
  val : Option Nat
deriving DecidableEq, Repr

/-- A freshly `BLI_mempool_alloc`-ed entry record (uninitialized storage,
modelled as zeroed). -/
def Entry.fresh : Entry := ⟨0, 0, none⟩

/-- `sizeof(Entry)` on an LP64 target: next(8) + hash(4+4 pad) + key(8) + val(8). -/
def GHASH_ENTRY_SIZE : Nat := 32

/-- `sizeof(Entry) - sizeof(void *)`: the trailing `val` slot is virtually
removed for gset entries. -/
def GSET_ENTRY_SIZE : Nat := 24

/-- `entry_copy` without copy callbacks (all call sites the claims exercise
pass `NULL` callbacks, so pointers are borrowed): `memcpy` covers the bytes
from `offsetof(Entry, hash)` up to `entry_size`, which includes the `val` slot
iff `entry_size` is the full ghash entry size. -/
def entry_copy (dst src : Entry) (entry_size : Nat) : Entry :=
  { hash := src.hash, key := src.key,
    val := if GHASH_ENTRY_SIZE ≤ entry_size then src.val else dst.val }

/-- `struct GHash` (modulo-buckets build): buckets are chains of entries; the
mempool handle is external state and not represented. -/
structure GHash where
  hashfp : Nat → Nat
  cmpfp : Nat → Nat → Bool
  buckets : List (List Entry)
  nbuckets : Nat
  limit_grow : Nat
  limit_shrink : Nat
  cursize : Nat
  size_min : Nat
  nentries : Nat
  flag : Nat
  entry_size : Nat

/-- `ghash_keyhash`: full hash of a key. -/
def ghash_keyhash (gh : GHash) (key : Nat) : Nat := gh.hashfp key

/-- `ghash_bucket_hash` (modulo mode): `full_hash % gh->nbuckets`. -/
def ghash_bucket_hash (gh : GHash) (full_hash : Nat) : Nat :=
  full_hash % gh.nbuckets

/-- The match condition shared by the lookup/remove/overwrite walks: the
cached full hash agrees and `cmpfp` returns `false` (equal). -/
def entry_match (cmpfp : Nat → Nat → Bool) (key hash : Nat) (e : Entry) :
    Bool :=
  e.hash == hash && (cmpfp key e.key == false)

/-- The chain walk of `ghash_lookup_entry_ex`: first compare the cached full
hash, and only then invoke `cmpfp` (a `false` result meaning equal). -/
def chain_lookup (cmpfp : Nat → Nat → Bool) (key hash : Nat) :
    List Entry → Option Entry
  | [] => none
  | e :: tl =>
    if e.hash == hash then
      if cmpfp key e.key == false then some e
      else chain_lookup cmpfp key hash tl
    else chain_lookup cmpfp key hash tl

/-- `ghash_lookup_entry_ex`. -/
def ghash_lookup_entry_ex (gh : GHash) (key hash bucket_hash : Nat) :
    Option Entry :=
  chain_lookup gh.cmpfp key hash (gh.buckets.getD bucket_hash [])

/-- `ghash_lookup_entry`. -/
def ghash_lookup_entry (gh : GHash) (key : Nat) : Option Entry :=
  ghash_lookup_entry_ex gh key (ghash_keyhash gh key)
    (ghash_bucket_hash gh (ghash_keyhash gh key))

/-- Prepend entry `e` to bucket `i` (`e->next = buckets[i]; buckets[i] = e`). -/
def bucket_prepend (buckets : List (List Entry)) (i : Nat) (e : Entry) :
    List (List Entry) :=
  buckets.set i (e :: buckets.getD i [])

/-- The rehash loops of `ghash_resize_buckets`: walk every old bucket in order
and prepend each entry to the new bucket `e->hash % nbuckets` (in modulo-bucket
mode both the grow and the shrink branch run this same loop). -/
def rehash_all (nbuckets : Nat) (buckets_old : List (List Entry)) :
    List (List Entry) :=
  buckets_old.foldl
    (fun acc chain =>
      chain.foldl (fun acc e => bucket_prepend acc (e.hash % nbuckets) e) acc)
    (List.replicate nbuckets [])

/-- `ghash_resize_buckets`. -/
def ghash_resize_buckets (gh : GHash) (nbuckets : Nat) : GHash :=
  { gh with nbuckets := nbuckets, buckets := rehash_all nbuckets gh.buckets }

/-- The grow loop of `ghash_expand_buckets`:
`while (nentries > limit_grow && cursize < GHASH_MAX_SIZE - 1)` step the cursor
up, recomputing `limit_grow` each iteration; `fuel` bounds the iteration count
structurally (the guard stops the loop before `GHASH_MAX_SIZE - cursize`
iterations, so the fuel chosen by `grow_loop` is never the binding limit).
Returns the final `(cursize, limit_grow, new_nbuckets)`. -/
def grow_loop_fuel (nentries : Nat) :
    Nat → Nat → Nat → Nat → Nat × Nat × Nat
  | 0, cursize, limit_grow, new_nbuckets => (cursize, limit_grow, new_nbuckets)
  | fuel + 1, cursize, limit_grow, new_nbuckets =>
    if nentries > limit_grow ∧ cursize < GHASH_MAX_SIZE - 1 then
      let nb := hashsizes.getD (cursize + 1) 0
      grow_loop_fuel nentries fuel (cursize + 1) (GHASH_LIMIT_GROW nb) nb
    else (cursize, limit_grow, new_nbuckets)

/-- The grow loop, started with enough fuel for the whole schedule. -/
def grow_loop (nentries cursize limit_grow new_nbuckets : Nat) :
    Nat × Nat × Nat :=
  grow_loop_fuel nentries (GHASH_MAX_SIZE - cursize) cursize limit_grow
    new_nbuckets

/-- The shrink loop of `ghash_expand_buckets`:
`while (nentries < limit_shrink && cursize > size_min)` step the cursor down,
recomputing `limit_shrink` each iteration (at cursor 0 the guard
`cursize > size_min` is false, so recursing on the cursor is exact). Returns
the final `(cursize, limit_shrink, new_nbuckets)`. -/
def shrink_loop (nentries size_min : Nat) :
    Nat → Nat → Nat → Nat × Nat × Nat
  | 0, limit_shrink, new_nbuckets => (0, limit_shrink, new_nbuckets)
  | c + 1, limit_shrink, new_nbuckets =>
    if nentries < limit_shrink ∧ c + 1 > size_min then
      let nb := hashsizes.getD c 0
      shrink_loop nentries size_min c (GHASH_LIMIT_SHRINK nb) nb
    else (c + 1, limit_shrink, new_nbuckets)

/-- `ghash_expand_buckets`: the growth/shrink policy. `nentries` is the entry
count the caller wants the table sized for; `gh.buckets = []` models a `NULL`
bucket array (a live array always has at least 5 buckets). -/
def ghash_expand_buckets (gh : GHash) (nentries : Nat)
    (user_defined force_shrink : Bool) : GHash :=
  if gh.buckets.isEmpty = false ∧ nentries < gh.limit_grow ∧
      nentries > gh.limit_shrink then
    gh
  else
    let g := grow_loop nentries gh.cursize gh.limit_grow gh.nbuckets
    let s :=
      if force_shrink || decide (gh.flag &&& GHASH_FLAG_ALLOW_SHRINK ≠ 0) then
        shrink_loop nentries gh.size_min g.1 gh.limit_shrink g.2.2
      else (g.1, gh.limit_shrink, g.2.2)
    let gh' := { gh with cursize := s.1, limit_grow := g.2.1,
                         limit_shrink := s.2.1,
                         size_min := if user_defined then s.1 else gh.size_min }
    if s.2.2 = gh'.nbuckets ∧ gh'.buckets.isEmpty = false then gh'
    else
      ghash_resize_buckets
        { gh' with limit_grow := GHASH_LIMIT_GROW s.2.2,
                   limit_shrink := GHASH_LIMIT_SHRINK s.2.2 }
        s.2.2

/-- `ghash_buckets_reset`: free the bucket array, reset the schedule cursor,
floor, thresholds, entry count and flags, then reserve for `nentries`. -/
def ghash_buckets_reset (gh : GHash) (nentries : Nat) : GHash :=
  ghash_expand_buckets
    { gh with buckets := [],
              cursize := 0, size_min := 0,
              nbuckets := hashsizes.getD 0 0,
              limit_grow := GHASH_LIMIT_GROW (hashsizes.getD 0 0),
              limit_shrink := GHASH_LIMIT_SHRINK (hashsizes.getD 0 0),
              nentries := 0, flag := 0 }
    nentries (decide (nentries ≠ 0)) false

/-- `ghash_new`: an empty table (the mempool creation is external). -/
def ghash_new (hashfp : Nat → Nat) (cmpfp : Nat → Nat → Bool)
    (nentries_reserve : Nat) (entry_size : Nat) : GHash :=
  ghash_buckets_reset
    { hashfp := hashfp, cmpfp := cmpfp, buckets := [], nbuckets := 0,
      limit_grow := 0, limit_shrink := 0, cursize := 0, size_min := 0,
      nentries := 0, flag := 0, entry_size := entry_size }
    nentries_reserve

/-- `ghash_insert_ex`: link a fresh entry at the head of its bucket, bump
`nentries` and consult the resize policy. -/
def ghash_insert_ex (gh : GHash) (key : Nat) (val : Option Nat)
    (hash bucket_hash : Nat) : GHash :=
  let gh' := { gh with buckets := bucket_prepend gh.buckets bucket_hash
                         ⟨hash, key, val⟩,
                       nentries := gh.nentries + 1 }
  ghash_expand_buckets gh' gh'.nentries false false

/-- `ghash_insert_ex_keyonly`: same, value intentionally left unset. -/
def ghash_insert_ex_keyonly (gh : GHash) (key : Nat) (hash bucket_hash : Nat) :
    GHash :=
  let gh' := { gh with buckets := bucket_prepend gh.buckets bucket_hash
                         ⟨hash, key, Entry.fresh.val⟩,
                       nentries := gh.nentries + 1 }
  ghash_expand_buckets gh' gh'.nentries false false

/-- `ghash_insert`. -/
def ghash_insert (gh : GHash) (key : Nat) (val : Option Nat) : GHash :=
  ghash_insert_ex gh key val (ghash_keyhash gh key)
    (ghash_bucket_hash gh (ghash_keyhash gh key))

/-- Replace the first entry of the chain satisfying `p` by `f` of it (the C
code mutates the record that `ghash_lookup_entry_ex` returned in place). -/
def chain_replace_first (p : Entry → Bool) (f : Entry → Entry) :
    List Entry → List Entry
  | [] => []
  | e :: tl => if p e then f e :: tl else e :: chain_replace_first p f tl

/-- `ghash_insert_safe`. The free callbacks are caller-side effects: the model
returns the list of keys and the list of values that were handed to the key
and value free callbacks (empty when the callback is `NULL`), together with
the updated table and the boolean result. -/
def ghash_insert_safe (gh : GHash) (key : Nat) (val : Option Nat)
    (override : Bool) (keyfreefp valfreefp : Bool) :
    GHash × Bool × List Nat × List (Option Nat) :=
  let hash := ghash_keyhash gh key
  let bucket_hash := ghash_bucket_hash gh hash
  let chain' := chain_replace_first
    (entry_match gh.cmpfp key hash)
    (fun e' => { e' with key := key, val := val })
    (gh.buckets.getD bucket_hash [])
  match ghash_lookup_entry_ex gh key hash bucket_hash with
  | some e =>
    if override then
      ({ gh with buckets := gh.buckets.set bucket_hash chain' },
       false,
       if keyfreefp then [e.key] else [],
       if valfreefp then [e.val] else [])
    else (gh, false, [], [])
  | none => (ghash_insert_ex gh key val hash bucket_hash, true, [], [])

/-- Remove the first entry of the chain satisfying `p`, returning the new
chain and the removed entry if any (the trailing-pointer unlink walk). -/
def chain_remove_first (p : Entry → Bool) :
    List Entry → List Entry × Option Entry
  | [] => ([], none)
  | e :: tl =>
    if p e then (tl, some e)
    else
      let r := chain_remove_first p tl
      (e :: r.1, r.2)

/-- `ghash_remove_ex`: unlink by hash+eq, decrement `nentries`, consult the
resize policy; returns the removed entry (the free callbacks act on
caller-owned key/value memory and the mempool release is external). -/
def ghash_remove_ex (gh : GHash) (key : Nat) (hash bucket_hash : Nat) :
    GHash × Option Entry :=
  let r := chain_remove_first (entry_match gh.cmpfp key hash)
    (gh.buckets.getD bucket_hash [])
  match r.2 with
  | some e =>
    let gh' := { gh with buckets := gh.buckets.set bucket_hash r.1,
                         nentries := gh.nentries - 1 }
    (ghash_expand_buckets gh' gh'.nentries false false, some e)
  | none => (gh, none)

/-- `ghash_copy` (with `NULL` copy callbacks, i.e. borrowed pointers): a new
table of the same callbacks and entry size, pre-grown for `gh->nentries`, each
entry copied and prepended to its bucket in the new table. -/
def ghash_copy (gh : GHash) : GHash :=
  let gh_new := ghash_new gh.hashfp gh.cmpfp 0 gh.entry_size
  let gh_new := ghash_expand_buckets gh_new gh.nentries false false
  let nb := gh_new.nbuckets
  let buckets' := gh.buckets.foldl
    (fun acc chain =>
      chain.foldl
        (fun acc e =>
          bucket_prepend acc (e.hash % nb)
            (entry_copy Entry.fresh e gh.entry_size))
        acc)
    gh_new.buckets
  { gh_new with buckets := buckets', nentries := gh.nentries }

/-- Public API wrappers (`BLI_ghash_...`). -/
def BLI_ghash_new_ex (hashfp : Nat → Nat) (cmpfp : Nat → Nat → Bool)
    (nentries_reserve : Nat) : GHash :=
  ghash_new hashfp cmpfp nentries_reserve GHASH_ENTRY_SIZE

/-- `BLI_ghash_reserve`. -/
def BLI_ghash_reserve (gh : GHash) (nentries_reserve : Nat) : GHash :=
  ghash_expand_buckets gh nentries_reserve true false

/-- `BLI_ghash_size`. -/
def BLI_ghash_size (gh : GHash) : Nat := gh.nentries

/-- `BLI_ghash_insert`. -/
def BLI_ghash_insert (gh : GHash) (key : Nat) (val : Option Nat) : GHash :=
  ghash_insert gh key val

/-- `BLI_ghash_add`. -/
def BLI_ghash_add (gh : GHash) (key : Nat) (val : Option Nat) :
    GHash × Bool :=
  let r := ghash_insert_safe gh key val false false false
  (r.1, r.2.1)

/-- `BLI_ghash_reinsert`. -/
def BLI_ghash_reinsert (gh : GHash) (key : Nat) (val : Option Nat)
    (keyfreefp valfreefp : Bool) : GHash × Bool × List Nat × List (Option Nat) :=
  ghash_insert_safe gh key val true keyfreefp valfreefp

/-- `BLI_ghash_lookup`: the entry's value, or `NULL` when absent. -/
def BLI_ghash_lookup (gh : GHash) (key : Nat) : Option Nat :=
  match ghash_lookup_entry gh key with
  | some e => e.val
  | none => none

/-- `BLI_ghash_lookup_p`: pointer to the value slot, or `NULL` when absent;
`some v` models a non-`NULL` pointer to a slot holding `v`. -/
def BLI_ghash_lookup_p (gh : GHash) (key : Nat) : Option (Option Nat) :=
  match ghash_lookup_entry gh key with
  | some e => some e.val
  | none => none

/-- `BLI_ghash_remove`. -/
def BLI_ghash_remove (gh : GHash) (key : Nat) : GHash × Bool :=
  let hash := ghash_keyhash gh key
  let r := ghash_remove_ex gh key hash (ghash_bucket_hash gh hash)
  (r.1, r.2.isSome)

/-- `BLI_ghash_popkey`: like remove but returns the removed value (`NULL` when
the key was absent). -/
def BLI_ghash_popkey (gh : GHash) (key : Nat) : GHash × Option Nat :=
  let hash := ghash_keyhash gh key
  let r := ghash_remove_ex gh key hash (ghash_bucket_hash gh hash)
  match r.2 with
  | some e => (r.1, e.val)
  | none => (r.1, none)

/-- `BLI_ghash_haskey`. -/
def BLI_ghash_haskey (gh : GHash) (key : Nat) : Bool :=
  (ghash_lookup_entry gh key).isSome

/-- `BLI_ghash_clear_ex` (free callbacks and the mempool clear are external
effects; the table state change is `ghash_buckets_reset`). -/
def BLI_ghash_clear_ex (gh : GHash) (nentries_reserve : Nat) : GHash :=
  ghash_buckets_reset gh nentries_reserve

/-- `BLI_ghash_flag_set`. -/
def BLI_ghash_flag_set (gh : GHash) (flag : Nat) : GHash :=
  { gh with flag := gh.flag ||| flag }

/-- `BLI_ghash_flag_clear` (`gh->flag &= ~flag` on a 32-bit flags word). -/
def BLI_ghash_flag_clear (gh : GHash) (flag : Nat) : GHash :=
  { gh with flag := gh.flag &&& ((2 ^ 32 - 1) ^^^ (flag % 2 ^ 32)) }

/-- Per-entry work of `ghash_union`: copy the operand entry into `gh1` when
its key is absent; when present and `reverse`, overwrite the found destination
entry in place via `entry_copy` (the free callbacks act on caller memory). -/
def ghash_union_entry (reverse : Bool) (entry_size : Nat) (gh1 : GHash)
    (e : Entry) : GHash :=
  let gh1_bucket_hash := ghash_bucket_hash gh1 e.hash
  let chain' := chain_replace_first
    (entry_match gh1.cmpfp e.key e.hash)
    (fun e_gh1 => entry_copy e_gh1 e entry_size)
    (gh1.buckets.getD gh1_bucket_hash [])
  match ghash_lookup_entry_ex gh1 e.key e.hash gh1_bucket_hash with
  | none =>
    let gh1' := { gh1 with
      buckets := bucket_prepend gh1.buckets gh1_bucket_hash
        (entry_copy Entry.fresh e entry_size),
      nentries := gh1.nentries + 1 }
    ghash_expand_buckets gh1' gh1'.nentries false false
  | some _ =>
    if reverse then
      { gh1 with buckets := gh1.buckets.set gh1_bucket_hash chain' }
    else gh1

/-- One operand of `ghash_union`: iterate all its buckets and entries. -/
def ghash_union_table (reverse : Bool) (entry_size : Nat) (gh1 ghn : GHash) :
    GHash :=
  ghn.buckets.foldl
    (fun gh1 chain => chain.foldl (ghash_union_entry reverse entry_size) gh1)
    gh1

/-- `ghash_union` over an already non-`NULL` destination `gh1` and the operand
list (the C varargs). -/
def ghash_union (reverse : Bool) (gh1 : GHash) (ghs : List GHash) : GHash :=
  ghs.foldl (ghash_union_table reverse gh1.entry_size) gh1

/-- `BLI_ghash_union`: when `gh1` is `NULL`, the first operand is deep-copied
and becomes the destination. -/
def BLI_ghash_union (gh1 : Option GHash) (gh2 : GHash) (rest : List GHash) :
    GHash :=
  match gh1 with
  | some g => ghash_union false g (gh2 :: rest)
  | none => ghash_union false (ghash_copy gh2) rest

/-- `BLI_ghash_union_reversed`. -/
def BLI_ghash_union_reversed (gh1 : Option GHash) (gh2 : GHash)
    (rest : List GHash) : GHash :=
  match gh1 with
  | some g => ghash_union true g (gh2 :: rest)
  | none => ghash_union true (ghash_copy gh2) rest

/-- One operand of `ghash_intersection`: sweep every destination bucket,
unlink the entries whose key is absent from `ghn` (counting removals into a
local so that the destination is not resized mid-sweep), then force-shrink. -/
def ghash_intersection_table (gh1 ghn : GHash) : GHash :=
  let removedP := fun (e : Entry) =>
    (ghash_lookup_entry_ex ghn e.key e.hash (ghash_bucket_hash ghn e.hash)).isNone
  let gh1' := { gh1 with
    buckets := gh1.buckets.map (fun chain => chain.filter (fun e => !removedP e)),
    nentries := gh1.nentries -
      (gh1.buckets.map (fun chain => chain.countP removedP)).sum }
  ghash_expand_buckets gh1' gh1'.nentries false true

/-- `ghash_intersection` over a non-`NULL` destination. -/
def ghash_intersection (gh1 : GHash) (ghs : List GHash) : GHash :=
  ghs.foldl ghash_intersection_table gh1

/-- One operand of `ghash_difference`: same sweep as intersection with the
removal predicate *present in the operand*. -/
def ghash_difference_table (gh1 ghn : GHash) : GHash :=
  let removedP := fun (e : Entry) =>
    (ghash_lookup_entry_ex ghn e.key e.hash (ghash_bucket_hash ghn e.hash)).isSome
  let gh1' := { gh1 with
    buckets := gh1.buckets.map (fun chain => chain.filter (fun e => !removedP e)),
    nentries := gh1.nentries -
      (gh1.buckets.map (fun chain => chain.countP removedP)).sum }
  ghash_expand_buckets gh1' gh1'.nentries false true

/-- `ghash_difference` over a non-`NULL` destination. -/
def ghash_difference (gh1 : GHash) (ghs : List GHash) : GHash :=
  ghs.foldl ghash_difference_table gh1

/-- First-pass state of `ghash_symmetric_difference`: the two scratch tables,
the function-local `entry_size` variable, and the conjunction of the evaluated
entry-size assert conditions. The source line
`BLI_assert(entry_size = ghn->entry_size)` contains an assignment, so the
condition the assert evaluates is the assigned value `ghn->entry_size`
(truthy iff nonzero) and the local is clobbered with that value. -/
structure SymDiffPass1 where
  keys : GHash
  rem_keys : GHash
  entry_size : Nat
  size_assert_ok : Bool

/-- Per-entry work of the first pass: a key already in `keys` is recorded
(again) in `rem_keys`, otherwise it is added to `keys`. -/
def symdiff_pass1_entry (st : SymDiffPass1) (e : Entry) : SymDiffPass1 :=
  let keys_bucket_hash := ghash_bucket_hash st.keys e.hash
  if (ghash_lookup_entry_ex st.keys e.key e.hash keys_bucket_hash).isSome then
    let rem_keys_bucket_hash := ghash_bucket_hash st.rem_keys e.hash
    let e_new := entry_copy Entry.fresh e GSET_ENTRY_SIZE
    let rem' := { st.rem_keys with
      buckets := bucket_prepend st.rem_keys.buckets rem_keys_bucket_hash e_new,
      nentries := st.rem_keys.nentries + 1 }
    { st with rem_keys := ghash_expand_buckets rem' rem'.nentries false false }
  else
    let e_new := entry_copy Entry.fresh e st.entry_size
    let keys' := { st.keys with
      buckets := bucket_prepend st.keys.buckets keys_bucket_hash e_new,
      nentries := st.keys.nentries + 1 }
    { st with keys := ghash_expand_buckets keys' keys'.nentries false false }

/-- First pass over one operand table. -/
def symdiff_pass1_table (st : SymDiffPass1) (ghn : GHash) : SymDiffPass1 :=
  let st := { st with
    size_assert_ok := st.size_assert_ok && decide (ghn.entry_size ≠ 0),
    entry_size := ghn.entry_size }
  ghn.buckets.foldl (fun st chain => chain.foldl symdiff_pass1_entry st) st

/-- Second-pass state: `keys`, the destination, and the conjunction of the
`BLI_assert(e_curr != NULL)` conditions (one per `rem_keys` entry). -/
structure SymDiffPass2 where
  keys : GHash
  gh1 : GHash
  rem_assert_ok : Bool

/-- Per-`rem_keys`-entry work of the second pass: unlink the key from `keys`
(asserting it was found), and also unlink it from the destination if present
(free callbacks fire on the destination entry only, acting on caller memory). -/
def symdiff_pass2_entry (st : SymDiffPass2) (e : Entry) : SymDiffPass2 :=
  let keys_bucket_hash := ghash_bucket_hash st.keys e.hash
  let gh1_bucket_hash := ghash_bucket_hash st.gh1 e.hash
  let rk := chain_remove_first
    (fun e_curr => e_curr.hash == e.hash &&
      (st.keys.cmpfp e_curr.key e.key == false))
    (st.keys.buckets.getD keys_bucket_hash [])
  let keys' := match rk.2 with
    | some _ => { st.keys with
        buckets := st.keys.buckets.set keys_bucket_hash rk.1,
        nentries := st.keys.nentries - 1 }
    | none => st.keys
  let rg := chain_remove_first
    (fun e_curr => e_curr.hash == e.hash &&
      (st.keys.cmpfp e_curr.key e.key == false))
    (st.gh1.buckets.getD gh1_bucket_hash [])
  let gh1' := match rg.2 with
    | some _ => { st.gh1 with
        buckets := st.gh1.buckets.set gh1_bucket_hash rg.1,
        nentries := st.gh1.nentries - 1 }
    | none => st.gh1
  { keys := keys', gh1 := gh1',
    rem_assert_ok := st.rem_assert_ok && rk.2.isSome }

/-- Per-`keys`-entry work of the final pass: add every remaining key not
already in the destination (using the possibly clobbered local entry size). -/
def symdiff_pass3_entry (entry_size : Nat) (gh1 : GHash) (e : Entry) : GHash :=
  let gh1_bucket_hash := ghash_bucket_hash gh1 e.hash
  if (ghash_lookup_entry_ex gh1 e.key e.hash gh1_bucket_hash).isNone then
    let gh1' := { gh1 with
      buckets := bucket_prepend gh1.buckets gh1_bucket_hash
        (entry_copy Entry.fresh e entry_size),
      nentries := gh1.nentries + 1 }
    ghash_expand_buckets gh1' gh1'.nentries false false
  else gh1

/-- `ghash_symmetric_difference` over a non-`NULL` destination `gh1` and the
operand list. Besides the resulting destination it returns the conjunction of
the first-pass entry-size assert conditions (as written in the source) and the
conjunction of the second-pass `BLI_assert(e_curr != NULL)` conditions. -/
def ghash_symmetric_difference (gh1 : GHash) (ghs : List GHash) :
    GHash × Bool × Bool :=
  let keys := ghash_copy gh1
  let rem_keys := ghash_new gh1.hashfp gh1.cmpfp 64 GSET_ENTRY_SIZE
  let st1 := ghs.foldl symdiff_pass1_table
    { keys := keys, rem_keys := rem_keys, entry_size := gh1.entry_size,
      size_assert_ok := true }
  let st2 := st1.rem_keys.buckets.foldl
    (fun st chain => chain.foldl symdiff_pass2_entry st)
    { keys := st1.keys, gh1 := gh1, rem_assert_ok := true }
  let gh1' := st2.keys.buckets.foldl
    (fun g chain => chain.foldl (symdiff_pass3_entry st1.entry_size) g) st2.gh1
  (ghash_expand_buckets gh1' gh1'.nentries false true,
   st1.size_assert_ok, st2.rem_assert_ok)

/-- `BLI_ghash_symmetric_difference`: when `gh1` is `NULL`, the first operand
is deep-copied and becomes the destination. -/
def BLI_ghash_symmetric_difference (gh1 : Option GHash) (gh2 : GHash)
    (rest : List GHash) : GHash × Bool × Bool :=
  match gh1 with
  | some g => ghash_symmetric_difference g (gh2 :: rest)
  | none => ghash_symmetric_difference (ghash_copy gh2) rest

/-! Invariant predicates used by the specification claims. -/

/-- Consistency of the sizing state: the bucket count follows the schedule
cursor, the thresholds are the ones recomputed for it, the floor is below the
cursor, and the bucket array is live (non-`NULL`). This holds for every table
produced by the API between public operations. -/
def SizeInv (gh : GHash) : Prop :=
  gh.cursize < GHASH_MAX_SIZE ∧
  gh.nbuckets = hashsizes.getD gh.cursize 0 ∧
  gh.size_min ≤ gh.cursize ∧
  gh.limit_grow = GHASH_LIMIT_GROW gh.nbuckets ∧
  gh.limit_shrink = GHASH_LIMIT_SHRINK gh.nbuckets ∧
  gh.buckets.isEmpty = false

instance (gh : GHash) : Decidable (SizeInv gh) := by
  unfold SizeInv
  infer_instance

/-- The load-factor band of spec §8 invariant 5: the entry count is below the
grow threshold unless the table sits at the top schedule step, and above the
shrink threshold unless shrinking is disabled or the table sits at its floor. -/
def Band (gh : GHash) : Prop :=
  (gh.nentries ≤ gh.limit_grow ∨ gh.cursize = GHASH_MAX_SIZE - 1) ∧
  (gh.limit_shrink ≤ gh.nentries ∨ gh.flag &&& GHASH_FLAG_ALLOW_SHRINK = 0 ∨
    gh.cursize = gh.size_min)

instance (gh : GHash) : Decidable (Band gh) := by
  unfold Band
  infer_instance

/-- The band relative to the entry count `n` a resize was asked to accommodate
(`forced = true` records that the caller forced shrinking). -/
def BandAt (gh : GHash) (n : Nat) (forced : Bool) : Prop :=
  (n ≤ gh.limit_grow ∨ gh.cursize = GHASH_MAX_SIZE - 1) ∧
  (gh.limit_shrink ≤ n ∨
    (gh.flag &&& GHASH_FLAG_ALLOW_SHRINK = 0 ∧ forced = false) ∨
    gh.cursize = gh.size_min)

/-- Every entry of the bucket array sits in the bucket its cached hash maps
to modulo `nbuckets` (spec §3 invariant 1). -/
def PlacedBuckets (nbuckets : Nat) (buckets : List (List Entry)) : Prop :=
  ∀ i, i < buckets.length → ∀ e ∈ buckets.getD i [],
    e.hash % nbuckets = i

instance (nbuckets : Nat) (buckets : List (List Entry)) :
    Decidable (PlacedBuckets nbuckets buckets) := by
  unfold PlacedBuckets
  infer_instance

/-- Structural well-formedness of the bucket array: its length is `nbuckets`
and every entry sits in the bucket its cached hash maps to. -/
def BucketsWF (gh : GHash) : Prop :=
  gh.buckets.length = gh.nbuckets ∧ PlacedBuckets gh.nbuckets gh.buckets

instance (gh : GHash) : Decidable (BucketsWF gh) := by
  unfold BucketsWF
  infer_instance

/-! Concrete fixtures for the literal scenarios of the spec (§8). Keys are
small integers; the hash callback is the identity (standing in for an
injective integer hash) and the comparison callback is `a != b`, true iff
unequal, exactly the convention of `BLI_ghashutil_intcmp`. -/

/-- Identity hash callback for concrete scenarios. -/
def idhash : Nat → Nat := fun k => k

/-- `BLI_ghashutil_intcmp`-style comparison: true iff unequal. -/
def neqcmp : Nat → Nat → Bool := fun a b => a != b

/-- Build a gset-layout table by key-only inserts (the `BLI_gset_insert`
path). -/
def mkGSet (ks : List Nat) : GHash :=
  ks.foldl
    (fun g k => ghash_insert_ex_keyonly g k (ghash_keyhash g k)
      (ghash_bucket_hash g (ghash_keyhash g k)))
    (ghash_new idhash neqcmp 0 GSET_ENTRY_SIZE)

/-- Build a map table by `BLI_ghash_insert` calls. -/
def mkGHash (kvs : List (Nat × Option Nat)) : GHash :=
  kvs.foldl (fun g kv => BLI_ghash_insert g kv.1 kv.2)
    (BLI_ghash_new_ex idhash neqcmp 0)

/-- The key multiset of a table, read off the bucket chains. -/
def tableKeys (gh : GHash) : List Nat := gh.buckets.flatten.map Entry.key

/-- Scenario S5 operand A = {1,2,3} (as a set). -/
def setA : GHash := mkGSet [1, 2, 3]

/-- Scenario S5 operand B = {2,3,4} (as a set). -/
def setB : GHash := mkGSet [2, 3, 4]

/-- Scenario S5 operand C = {3,4,5} (as a set). -/
def setC : GHash := mkGSet [3, 4, 5]

/-- A one-key set {1}, used to exhibit a key occurring in three operands. -/
def oneKeySet : GHash := mkGSet [1]

/-- A map with key 1 bound to the `NULL` value. -/
def mapNullVal : GHash := mkGHash [(1, none)]

/-- A one-entry map of full (map) entry size. -/
def mapOne : GHash := mkGHash [(1, some 10)]

/-- Scenario S4 destination A = {1→"a", 2→"b"} (values encoded as numbers:
"a" = 100, "b" = 101). -/
def mapA : GHash := mkGHash [(1, some 100), (2, some 101)]

/-- Scenario S4 operand B = {2→"B", 3→"c"} ("B" = 103, "c" = 102). -/
def mapB : GHash := mkGHash [(2, some 103), (3, some 102)]

/-- Twenty inserts from an empty table: sits at schedule step 3 (37 buckets)
with 20 entries. -/
def table20 : GHash :=
  mkGHash ((List.range 20).map (fun k => (k + 1, some k)))

/-! ## Supporting lemmas -/

/-- `ghash_expand_buckets` only resizes buckets and recomputes sizing fields:
the flags word is untouched. -/
theorem expand_flag (gh : GHash) (n : Nat) (u f : Bool) :
    (ghash_expand_buckets gh n u f).flag = gh.flag := by
  unfold ghash_expand_buckets ghash_resize_buckets
  dsimp only
  repeat' split
  all_goals rfl

/-- `ghash_expand_buckets` does not touch the `nentries` field. -/
theorem expand_nentries (gh : GHash) (n : Nat) (u f : Bool) :
    (ghash_expand_buckets gh n u f).nentries = gh.nentries := by
  unfold ghash_expand_buckets ghash_resize_buckets
  dsimp only
  repeat' split
  all_goals rfl

/-- A user-defined (reservation) resize on a freed (`NULL`) bucket array sets
the floor to the final cursor. -/
theorem expand_user_floor (gh : GHash) (n : Nat) (f : Bool)
    (h : gh.buckets.isEmpty = true) :
    (ghash_expand_buckets gh n true f).size_min =
      (ghash_expand_buckets gh n true f).cursize := by
  unfold ghash_expand_buckets ghash_resize_buckets
  rw [h]
  simp only [Bool.true_eq_false, false_and, if_false]
  repeat' split
  all_goals first
  | rfl
  | simp_all

/-- The nested-if chain walk returns the first entry satisfying
`entry_match`. -/
theorem chain_lookup_eq_find (cmpfp : Nat → Nat → Bool) (key hash : Nat)
    (l : List Entry) :
    chain_lookup cmpfp key hash l = l.find? (entry_match cmpfp key hash) := by
  induction l with
  | nil => rfl
  | cons e tl ih =>
    show (if e.hash == hash then
        if cmpfp key e.key == false then some e
        else chain_lookup cmpfp key hash tl
      else chain_lookup cmpfp key hash tl) = _
    rcases h1 : (e.hash == hash) <;> rcases h2 : (cmpfp key e.key == false) <;>
      simp [List.find?, entry_match, h1, h2, ih]

/-- The trailing-pointer removal walk removes exactly the entry the lookup
walk finds. -/
theorem chain_remove_first_find (p : Entry → Bool) (l : List Entry) :
    (chain_remove_first p l).2 = l.find? p := by
  induction l with
  | nil => rfl
  | cons e tl ih =>
    show (if p e then (tl, some e)
      else ((e :: (chain_remove_first p tl).1, (chain_remove_first p tl).2) :
        List Entry × Option Entry)).2 = _
    rcases h : p e <;> simp [List.find?, h, ih]

/-- When nothing matches, the removal walk rebuilds the chain unchanged. -/
theorem chain_remove_first_not_found (p : Entry → Bool) (l : List Entry)
    (h : l.find? p = none) : (chain_remove_first p l).1 = l := by
  induction l with
  | nil => rfl
  | cons e tl ih =>
    rw [List.find?] at h
    rcases hp : p e
    · rw [hp] at h
      show (if p e then (tl, some e)
        else ((e :: (chain_remove_first p tl).1, (chain_remove_first p tl).2) :
          List Entry × Option Entry)).1 = e :: tl
      rw [hp]
      simp [ih h]
    · rw [hp] at h
      simp at h

/-- A found entry belongs to its bucket's chain, hence to the table. -/
theorem lookup_some_mem (gh : GHash) (key : Nat) (e : Entry)
    (h : ghash_lookup_entry gh key = some e) : e ∈ gh.buckets.flatten := by
  unfold ghash_lookup_entry ghash_lookup_entry_ex at h
  rw [chain_lookup_eq_find] at h
  have hmem := List.mem_of_find?_eq_some h
  rcases Nat.lt_or_ge (ghash_bucket_hash gh (ghash_keyhash gh key))
      gh.buckets.length with hl | hl
  · refine List.mem_flatten.mpr
      ⟨gh.buckets.getD (ghash_bucket_hash gh (ghash_keyhash gh key)) [],
        ?_, hmem⟩
    rw [List.getD_eq_getElem _ _ hl]
    exact List.getElem_mem hl
  · rw [List.getD_eq_default _ _ hl] at hmem
    simp at hmem

/-! ## Claim theorems -/

/-- C1: the spec claims the second pass of `ghash_symmetric_difference` finds
every `rem_keys` member in `keys` (the `BLI_assert(e_curr != NULL)` guard),
for any number of operands, including a key occurring in three or more
operands. The code violates its own assertion: with the one-key set {1} as
destination and two more operands both containing key 1, the first pass
records key 1 in `rem_keys` twice, and processing the duplicate finds `keys`
already emptied, so the conjunction of the evaluated assert conditions is
`false`; with a single extra operand the assertion does hold. -/
theorem C1_symdiff_rem_keys_assert_fails :
    (ghash_symmetric_difference oneKeySet [mkGSet [1], mkGSet [1]]).2.2
      = false ∧
    (ghash_symmetric_difference oneKeySet [mkGSet [1]]).2.2 = true := by
  decide

/-- C2: the spec claims the first pass of symmetric difference asserts that
every operand's entry size equals the first operand's, so a mismatched
operand never passes silently. The source line is
`BLI_assert(entry_size = ghn->entry_size)` — an assignment, not a
comparison — whose evaluated condition is the (nonzero) assigned size, so a
gset operand mixed into a ghash symmetric difference passes the check:
the sizes differ yet the conjunction of evaluated assert conditions is
`true`. -/
theorem C2_entry_size_assert_passes_on_mismatch :
    mapOne.entry_size = GHASH_ENTRY_SIZE ∧
    (mkGSet [2]).entry_size = GSET_ENTRY_SIZE ∧
    GHASH_ENTRY_SIZE ≠ GSET_ENTRY_SIZE ∧
    (ghash_symmetric_difference mapOne [mkGSet [2]]).2.1 = true := by
  decide

/-- C3: symmetric difference (scenario S5): for the sets A = {1,2,3},
B = {2,3,4}, C = {3,4,5} sharing hash and comparison callbacks,
`sym_diff(A,B,C)` leaves the destination with exactly the keys appearing in
exactly one operand, namely {1,5} (and two entries). -/
theorem C3_symdiff_three_sets :
    (tableKeys (ghash_symmetric_difference setA [setB, setC]).1).Perm
      [1, 5] ∧
    (ghash_symmetric_difference setA [setB, setC]).1.nentries = 2 := by
  decide

/-- C4 counterexample: the claim says `add(k,v)` returns true iff a
`lookup(k)` done just before would have returned nothing, including when `k`
is present mapped to a `NULL` value. On a table holding key 1 with the `NULL`
value, `lookup` returns nothing (`NULL`) yet `add` returns `false` (the entry
exists), refuting the claimed equivalence at this input. -/
theorem C4_add_counterexample :
    BLI_ghash_lookup mapNullVal 1 = none ∧
    (ghash_lookup_entry mapNullVal 1).isSome = true ∧
    (BLI_ghash_add mapNullVal 1 (some 7)).2 = false := by
  decide

/-- C4 (amended): `add(k,v)` returns true iff no entry for `k` exists —
equivalently, iff `lookup_p(k)` performed immediately before the call would
have returned `NULL`. (`lookup(k)` conflates a missing key with a present key
mapped to `NULL`, for which `add` still returns false.) -/
theorem C4_add_true_iff_no_entry (gh : GHash) (key : Nat) (val : Option Nat) :
    (BLI_ghash_add gh key val).2 = true ↔ BLI_ghash_lookup_p gh key = none := by
  unfold BLI_ghash_add ghash_insert_safe BLI_ghash_lookup_p ghash_lookup_entry
  cases h : ghash_lookup_entry_ex gh key (ghash_keyhash gh key)
      (ghash_bucket_hash gh (ghash_keyhash gh key)) <;>
    simp [h]

/-- C5 counterexample: the claim includes `reserve` among the public
mutations after which `nentries ≤ limit_grow` holds unless the table is at the
top schedule step. But `BLI_ghash_reserve` sizes the table for the *reserved*
count, not the live count: on a 20-entry table (37 buckets) with
`ALLOW_SHRINK` set, `reserve(0)` shrinks the table to the 5-bucket floor,
leaving 20 live entries above `limit_grow = 3` while the cursor sits at step
0 — not the largest bucket count — so the claimed band is violated. -/
theorem C5_reserve_band_counterexample :
    (BLI_ghash_reserve (BLI_ghash_flag_set table20 GHASH_FLAG_ALLOW_SHRINK)
      0).nentries = 20 ∧
    (BLI_ghash_reserve (BLI_ghash_flag_set table20 GHASH_FLAG_ALLOW_SHRINK)
      0).limit_grow = 3 ∧
    (BLI_ghash_reserve (BLI_ghash_flag_set table20 GHASH_FLAG_ALLOW_SHRINK)
      0).cursize = 0 ∧
    ¬ Band (BLI_ghash_reserve
      (BLI_ghash_flag_set table20 GHASH_FLAG_ALLOW_SHRINK) 0) := by
  decide

/-- C9: left-biased union in place (scenario S4): for A = {1→"a", 2→"b"} and
B = {2→"B", 3→"c"} over the same callbacks, `union_left(A,B)` keeps every key
of A with its pre-call value ("a" = 100, "b" = 101 — A's value for key 2
wins), adds the key of B absent from A with B's value ("c" = 102), and the
resulting key set is exactly the union {1,2,3}. -/
theorem C9_union_left_biased_concrete :
    BLI_ghash_lookup (BLI_ghash_union (some mapA) mapB []) 1 = some 100 ∧
    BLI_ghash_lookup (BLI_ghash_union (some mapA) mapB []) 2 = some 101 ∧
    BLI_ghash_lookup (BLI_ghash_union (some mapA) mapB []) 3 = some 102 ∧
    (tableKeys (BLI_ghash_union (some mapA) mapB [])).Perm [1, 2, 3] ∧
    (BLI_ghash_union (some mapA) mapB []).nentries = 3 := by
  decide

/-- C10: `clear_ex` resets the flags word to zero (so `ALLOW_DUPES` and
`ALLOW_SHRINK` no longer hold), and resets the schedule cursor and the
reservation floor to the minimum step before re-reserving: the cleared table
is exactly a freshly created table with the same callbacks, entry size and
reservation, with a zero reservation leaving cursor and floor at step 0, and
any new floor coming only from the reservation passed to `clear_ex` itself
(the floor always equals the post-clear cursor). -/
theorem C10_clear_resets_flags_cursor_floor (gh : GHash) (r : Nat) :
    BLI_ghash_clear_ex gh r = ghash_new gh.hashfp gh.cmpfp r gh.entry_size ∧
    (BLI_ghash_clear_ex gh r).flag = 0 ∧
    (BLI_ghash_clear_ex gh r).size_min = (BLI_ghash_clear_ex gh r).cursize ∧
    (BLI_ghash_clear_ex gh 0).cursize = 0 ∧
    (BLI_ghash_clear_ex gh 0).size_min = 0 := by
  refine ⟨rfl, ?_, ?_, ?_, ?_⟩
  · show (ghash_buckets_reset gh r).flag = 0
    unfold ghash_buckets_reset
    rw [expand_flag]
  · show (ghash_buckets_reset gh r).size_min = (ghash_buckets_reset gh r).cursize
    unfold ghash_buckets_reset
    rcases r with _ | r'
    · simp [ghash_expand_buckets, grow_loop, grow_loop_fuel, shrink_loop,
        ghash_resize_buckets, GHASH_MAX_SIZE, GHASH_LIMIT_GROW,
        GHASH_LIMIT_SHRINK, hashsizes, GHASH_FLAG_ALLOW_SHRINK]
    · exact expand_user_floor _ _ _ rfl
  · show (ghash_buckets_reset gh 0).cursize = 0
    simp [ghash_buckets_reset, ghash_expand_buckets, grow_loop, grow_loop_fuel,
      shrink_loop, ghash_resize_buckets, GHASH_MAX_SIZE, GHASH_LIMIT_GROW,
      GHASH_LIMIT_SHRINK, hashsizes, GHASH_FLAG_ALLOW_SHRINK]
  · show (ghash_buckets_reset gh 0).size_min = 0
    simp [ghash_buckets_reset, ghash_expand_buckets, grow_loop, grow_loop_fuel,
      shrink_loop, ghash_resize_buckets, GHASH_MAX_SIZE, GHASH_LIMIT_GROW,
      GHASH_LIMIT_SHRINK, hashsizes, GHASH_FLAG_ALLOW_SHRINK]


/-- C8: `remove(k)` returns true and decrements `nentries` by exactly one when
`k` is present, and returns false leaving the entire table state unchanged
when `k` is absent; `pop(k)` produces the same table in both cases, returning
the stored value instead of true when present and nothing (`NULL`) when
absent. (`nentries` is assumed consistent with the live entries, as the API
maintains.) -/
theorem C8_remove_pop_semantics (gh : GHash) (key : Nat)
    (hcount : gh.nentries = gh.buckets.flatten.length) :
    ((ghash_lookup_entry gh key).isSome = true →
      (BLI_ghash_remove gh key).2 = true ∧
      (BLI_ghash_remove gh key).1.nentries + 1 = gh.nentries ∧
      (BLI_ghash_popkey gh key).1 = (BLI_ghash_remove gh key).1 ∧
      ∃ e, ghash_lookup_entry gh key = some e ∧
        (BLI_ghash_popkey gh key).2 = e.val) ∧
    ((ghash_lookup_entry gh key).isSome = false →
      (BLI_ghash_remove gh key).2 = false ∧
      (BLI_ghash_remove gh key).1 = gh ∧
      (BLI_ghash_popkey gh key).1 = gh ∧
      (BLI_ghash_popkey gh key).2 = none) := by
  have hfind : (chain_remove_first
      (entry_match gh.cmpfp key (ghash_keyhash gh key))
      (gh.buckets.getD
        (ghash_bucket_hash gh (ghash_keyhash gh key)) [])).2
      = ghash_lookup_entry gh key := by
    rw [chain_remove_first_find]
    unfold ghash_lookup_entry ghash_lookup_entry_ex
    rw [chain_lookup_eq_find]
  constructor
  · intro hsome
    rcases Option.isSome_iff_exists.mp hsome with ⟨e, he⟩
    have hpos : 0 < gh.nentries := by
      rw [hcount]
      exact List.length_pos_of_mem (lookup_some_mem gh key e he)
    unfold BLI_ghash_remove BLI_ghash_popkey ghash_remove_ex
    dsimp only
    rw [hfind, he]
    refine ⟨rfl, ?_, rfl, e, rfl, rfl⟩
    dsimp only
    rw [expand_nentries]
    dsimp only
    omega
  · intro hnone
    have hx : ghash_lookup_entry gh key = none := by
      cases hy : ghash_lookup_entry gh key
      · rfl
      · rw [hy] at hnone
        simp at hnone
    unfold BLI_ghash_remove BLI_ghash_popkey ghash_remove_ex
    dsimp only
    rw [hfind, hx]
    exact ⟨rfl, rfl, rfl, rfl⟩

/-- C8 witness: at the concrete table {1→100, 2→101}, removing the present
key 2 returns true and pop returns its value; removing the absent key 7
returns false and pop returns nothing. -/
theorem C8_remove_pop_semantics_witness :
    (BLI_ghash_remove mapA 2).2 = true ∧
    (BLI_ghash_popkey mapA 2).2 = some 101 ∧
    (BLI_ghash_remove mapA 7).2 = false ∧
    (BLI_ghash_popkey mapA 7).2 = none := by
  have h2 := (C8_remove_pop_semantics mapA 2 (by decide)).1 (by decide)
  have h7 := (C8_remove_pop_semantics mapA 7 (by decide)).2 (by decide)
  rcases h2.2.2.2 with ⟨e, he, hv⟩
  have hev : e.val = some 101 := by
    have : some e = some (Entry.mk 2 2 (some 101)) := by
      rw [← he]
      decide
    cases this
    rfl
  exact ⟨h2.1, by rw [hv, hev], h7.1, h7.2.2.2⟩


/-- A non-matching head is skipped by the chain walk. -/
theorem chain_lookup_cons_not_matched (cmpfp : Nat → Nat → Bool)
    (key hash : Nat) (e : Entry) (tl : List Entry)
    (h : entry_match cmpfp key hash e = false) :
    chain_lookup cmpfp key hash (e :: tl) = chain_lookup cmpfp key hash tl := by
  unfold entry_match at h
  show (if e.hash == hash then
      if cmpfp key e.key == false then some e
      else chain_lookup cmpfp key hash tl
    else chain_lookup cmpfp key hash tl) = _
  rcases h1 : (e.hash == hash) <;> rcases h2 : (cmpfp key e.key == false) <;>
    simp_all

/-- A matching head is returned by the chain walk. -/
theorem chain_lookup_cons_matched (cmpfp : Nat → Nat → Bool)
    (key hash : Nat) (e : Entry) (tl : List Entry)
    (h : entry_match cmpfp key hash e = true) :
    chain_lookup cmpfp key hash (e :: tl) = some e := by
  unfold entry_match at h
  rw [Bool.and_eq_true] at h
  show (if e.hash == hash then
      if cmpfp key e.key == false then some e
      else chain_lookup cmpfp key hash tl
    else chain_lookup cmpfp key hash tl) = _
  rw [h.1, h.2]
  rfl

/-- The chain walk either splits the chain at the first match and returns it,
or nothing in the chain matches and it returns `none`. -/
theorem chain_lookup_first_match (cmpfp : Nat → Nat → Bool) (key hash : Nat)
    (l : List Entry) :
    (∃ pre e post, l = pre ++ e :: post ∧
      (∀ e' ∈ pre, entry_match cmpfp key hash e' = false) ∧
      entry_match cmpfp key hash e = true ∧
      chain_lookup cmpfp key hash l = some e) ∨
    ((∀ e ∈ l, entry_match cmpfp key hash e = false) ∧
      chain_lookup cmpfp key hash l = none) := by
  induction l with
  | nil => exact Or.inr ⟨by simp, rfl⟩
  | cons e tl ih =>
    rcases hm : entry_match cmpfp key hash e
    · rcases ih with ⟨pre, e0, post, hsplit, hpre, hmatch, hlook⟩ | ⟨hall, hlook⟩
      · refine Or.inl ⟨e :: pre, e0, post, by rw [hsplit, List.cons_append], ?_, hmatch, ?_⟩
        · intro e' he'
          rcases List.mem_cons.mp he' with rfl | he'
          · exact hm
          · exact hpre e' he'
        · rw [chain_lookup_cons_not_matched cmpfp key hash e tl hm, hlook]
      · refine Or.inr ⟨?_, ?_⟩
        · intro e' he'
          rcases List.mem_cons.mp he' with rfl | he'
          · exact hm
          · exact hall e' he'
        · rw [chain_lookup_cons_not_matched cmpfp key hash e tl hm, hlook]
    · exact Or.inl ⟨[], e, tl, rfl, by simp,
        hm, chain_lookup_cons_matched cmpfp key hash e tl hm⟩

/-- C6: lookup computes the full hash `h = hash_fn(k)`, walks the chain of
bucket `h % nbuckets` in order, and returns the value of the first entry
whose cached full hash equals `h` and for which `eq_fn(k, key)` returns
`false` (equal, per the true-iff-unequal convention); when no entry of that
chain matches, it returns nothing (`NULL`). -/
theorem C6_lookup_first_match (gh : GHash) (key : Nat) :
    (∃ pre e post,
      gh.buckets.getD (ghash_keyhash gh key % gh.nbuckets) []
        = pre ++ e :: post ∧
      (∀ e' ∈ pre, entry_match gh.cmpfp key (ghash_keyhash gh key) e'
        = false) ∧
      entry_match gh.cmpfp key (ghash_keyhash gh key) e = true ∧
      ghash_lookup_entry gh key = some e ∧
      BLI_ghash_lookup gh key = e.val) ∨
    ((∀ e ∈ gh.buckets.getD (ghash_keyhash gh key % gh.nbuckets) [],
      entry_match gh.cmpfp key (ghash_keyhash gh key) e = false) ∧
      ghash_lookup_entry gh key = none ∧
      BLI_ghash_lookup gh key = none) := by
  have hun : ghash_lookup_entry gh key
      = chain_lookup gh.cmpfp key (ghash_keyhash gh key)
        (gh.buckets.getD (ghash_keyhash gh key % gh.nbuckets) []) := rfl
  rcases chain_lookup_first_match gh.cmpfp key (ghash_keyhash gh key)
      (gh.buckets.getD (ghash_keyhash gh key % gh.nbuckets) []) with
    ⟨pre, e, post, hsplit, hpre, hmatch, hlook⟩ | ⟨hall, hlook⟩
  · refine Or.inl ⟨pre, e, post, hsplit, hpre, hmatch, hun.trans hlook, ?_⟩
    unfold BLI_ghash_lookup
    rw [hun, hlook]
  · refine Or.inr ⟨hall, hun.trans hlook, ?_⟩
    unfold BLI_ghash_lookup
    rw [hun, hlook]


/-! ## Bucket-array machinery: prepend, rehash, and placement lemmas -/

/-- `getD` after setting the same position. -/
theorem getD_set_self (bs : List (List Entry)) (j : Nat) (v : List Entry)
    (h : j < bs.length) : (bs.set j v).getD j [] = v := by
  rw [List.getD_eq_getElem _ _ (by simpa using h)]
  simp

/-- `getD` after setting a different position. -/
theorem getD_set_ne (bs : List (List Entry)) (j : Nat) (v : List Entry)
    (i : Nat) (h : i ≠ j) : (bs.set j v).getD i [] = bs.getD i [] := by
  rcases Nat.lt_or_ge i bs.length with hi | hi
  · rw [List.getD_eq_getElem _ _ (by simpa using hi),
      List.getD_eq_getElem _ _ hi]
    exact List.getElem_set_ne (Ne.symm h) _
  · rw [List.getD_eq_default _ _ (by simpa using hi),
      List.getD_eq_default _ _ hi]

/-- Prepending into a bucket preserves the number of buckets. -/
theorem length_bucket_prepend (bs : List (List Entry)) (i : Nat) (e : Entry) :
    (bucket_prepend bs i e).length = bs.length := by
  unfold bucket_prepend
  exact List.length_set bs i _

/-- Prepending into an in-range bucket adds exactly that entry to the
table's entry multiset. -/
theorem flatten_bucket_prepend (bs : List (List Entry)) (i : Nat) (e : Entry)
    (h : i < bs.length) :
    (bucket_prepend bs i e).flatten.Perm (e :: bs.flatten) := by
  induction bs generalizing i with
  | nil => cases h
  | cons c t ih =>
    rcases i with _ | j
    · unfold bucket_prepend
      simp
    · have hj : j < t.length := by simpa using h
      have hstep : bucket_prepend (c :: t) (j + 1) e
          = c :: bucket_prepend t j e := by
        unfold bucket_prepend
        rfl
      rw [hstep, List.flatten_cons, List.flatten_cons]
      exact ((ih j hj).append_left c).trans List.perm_middle

/-- Prepending an entry into the bucket of its hash preserves placement. -/
theorem placed_bucket_prepend (nb : Nat) (bs : List (List Entry)) (e : Entry)
    (hp : PlacedBuckets nb bs) :
    PlacedBuckets nb (bucket_prepend bs (e.hash % nb) e) := by
  intro i hi e' he'
  rw [length_bucket_prepend] at hi
  unfold bucket_prepend at he'
  by_cases hij : i = e.hash % nb
  · have hgd : (bs.set (e.hash % nb)
        (e :: bs.getD (e.hash % nb) [])).getD i []
        = e :: bs.getD (e.hash % nb) [] := by
      rw [hij]
      exact getD_set_self bs _ _ (hij ▸ hi)
    rw [hgd] at he'
    rcases List.mem_cons.mp he' with rfl | he''
    · exact hij.symm
    · rw [hij]
      exact hp _ (hij ▸ hi) e' he''
  · rw [getD_set_ne bs _ _ i hij] at he'
    exact hp i hi e' he'

/-- The nested rehash loop, flattened to a single fold over all entries. -/
theorem rehash_all_eq_foldl (nb : Nat) (bs : List (List Entry)) :
    rehash_all nb bs
      = bs.flatten.foldl (fun acc e => bucket_prepend acc (e.hash % nb) e)
          (List.replicate nb []) := by
  unfold rehash_all
  rw [List.foldl_flatten]

/-- The fold of prepends preserves the bucket count. -/
theorem foldl_prepend_length (nb : Nat) (l : List Entry)
    (acc : List (List Entry)) :
    (l.foldl (fun acc e => bucket_prepend acc (e.hash % nb) e) acc).length
      = acc.length := by
  induction l generalizing acc with
  | nil => rfl
  | cons e t ih => rw [List.foldl_cons, ih, length_bucket_prepend]

/-- Rehashing produces exactly `nb` buckets. -/
theorem rehash_all_length (nb : Nat) (bs : List (List Entry)) :
    (rehash_all nb bs).length = nb := by
  rw [rehash_all_eq_foldl, foldl_prepend_length]
  exact List.length_replicate nb []

/-- The fold of prepends accumulates exactly the folded entries. -/
theorem foldl_prepend_perm (nb : Nat) (hnb : 0 < nb) (l : List Entry) :
    ∀ acc : List (List Entry), acc.length = nb →
      (l.foldl (fun acc e => bucket_prepend acc (e.hash % nb) e)
        acc).flatten.Perm (l ++ acc.flatten) := by
  induction l with
  | nil => intro acc _; simp
  | cons e t ih =>
    intro acc hlen
    rw [List.foldl_cons]
    have h1 := ih (bucket_prepend acc (e.hash % nb) e)
      (by rw [length_bucket_prepend, hlen])
    have h2 : (bucket_prepend acc (e.hash % nb) e).flatten.Perm
        (e :: acc.flatten) := by
      refine flatten_bucket_prepend acc _ e ?_
      rw [hlen]
      exact Nat.mod_lt _ hnb
    exact h1.trans ((h2.append_left t).trans List.perm_middle)

/-- Rehashing preserves the table's entry multiset. -/
theorem rehash_all_perm (nb : Nat) (hnb : 0 < nb) (bs : List (List Entry)) :
    (rehash_all nb bs).flatten.Perm bs.flatten := by
  rw [rehash_all_eq_foldl]
  have h := foldl_prepend_perm nb hnb bs.flatten _
    (List.length_replicate nb [])
  simpa using h

/-- The fold of prepends preserves placement. -/
theorem foldl_prepend_placed (nb : Nat) (l : List Entry) :
    ∀ acc : List (List Entry), PlacedBuckets nb acc →
      PlacedBuckets nb
        (l.foldl (fun acc e => bucket_prepend acc (e.hash % nb) e) acc) := by
  induction l with
  | nil => intro acc h; exact h
  | cons e t ih =>
    intro acc h
    rw [List.foldl_cons]
    exact ih _ (placed_bucket_prepend nb acc e h)

/-- An all-empty bucket array is trivially placed. -/
theorem placed_replicate (nb m : Nat) :
    PlacedBuckets nb (List.replicate m ([] : List Entry)) := by
  intro i hi e he
  rw [List.length_replicate] at hi
  rw [List.getD_eq_getElem _ _ (by simpa using hi)] at he
  simp at he

/-- Rehashing places every entry in the bucket of its hash. -/
theorem rehash_all_placed (nb : Nat) (bs : List (List Entry)) :
    PlacedBuckets nb (rehash_all nb bs) := by
  rw [rehash_all_eq_foldl]
  exact foldl_prepend_placed nb bs.flatten _ (placed_replicate nb nb)


/-! ## Schedule facts and resize-loop specifications -/

/-- Every scheduled bucket count is positive. -/
theorem hashsizes_pos : ∀ i, i < GHASH_MAX_SIZE → 0 < hashsizes.getD i 0 := by
  decide

/-- Stepping one schedule slot up, the new shrink threshold stays below the
old grow threshold (the hysteresis of the 3/16 and 3/4 bands under the
roughly-doubling schedule). -/
theorem shrink_next_le_grow : ∀ i, i < GHASH_MAX_SIZE - 1 →
    GHASH_LIMIT_SHRINK (hashsizes.getD (i + 1) 0)
      ≤ GHASH_LIMIT_GROW (hashsizes.getD i 0) := by
  decide

/-- The schedule is strictly increasing. -/
theorem hashsizes_strict_mono : ∀ j, j < GHASH_MAX_SIZE → ∀ i, i < j →
    hashsizes.getD i 0 < hashsizes.getD j 0 := by
  decide

/-- Equal scheduled bucket counts have equal cursors. -/
theorem hashsizes_getD_inj (i j : Nat) (hi : i < GHASH_MAX_SIZE)
    (hj : j < GHASH_MAX_SIZE) (h : hashsizes.getD i 0 = hashsizes.getD j 0) :
    i = j := by
  rcases Nat.lt_trichotomy i j with hlt | heq | hgt
  · exact absurd h (Nat.ne_of_lt (hashsizes_strict_mono j hj i hlt))
  · exact heq
  · exact absurd h.symm (Nat.ne_of_lt (hashsizes_strict_mono i hi j hgt))

/-- At any bucket count the shrink threshold is below the grow threshold. -/
theorem limit_shrink_le_limit_grow (nb : Nat) :
    GHASH_LIMIT_SHRINK nb ≤ GHASH_LIMIT_GROW nb := by
  unfold GHASH_LIMIT_SHRINK GHASH_LIMIT_GROW
  omega

/-- Specification of the grow loop: starting from a schedule-consistent
`(cursize, limit_grow, nbuckets)` triple, it returns a schedule-consistent
triple at or above the start, stops only when the count fits or the top step
is reached, and when it moved, the count exceeded the old grow threshold and
still clears the new shrink threshold. -/
theorem grow_loop_fuel_spec (n : Nat) (fuel : Nat) :
    ∀ c lg nb, c < GHASH_MAX_SIZE → GHASH_MAX_SIZE ≤ c + fuel →
    nb = hashsizes.getD c 0 → lg = GHASH_LIMIT_GROW nb →
    c ≤ (grow_loop_fuel n fuel c lg nb).1 ∧
    (grow_loop_fuel n fuel c lg nb).1 < GHASH_MAX_SIZE ∧
    (grow_loop_fuel n fuel c lg nb).2.2
      = hashsizes.getD (grow_loop_fuel n fuel c lg nb).1 0 ∧
    (grow_loop_fuel n fuel c lg nb).2.1
      = GHASH_LIMIT_GROW (grow_loop_fuel n fuel c lg nb).2.2 ∧
    (n ≤ (grow_loop_fuel n fuel c lg nb).2.1 ∨
      (grow_loop_fuel n fuel c lg nb).1 = GHASH_MAX_SIZE - 1) ∧
    ((grow_loop_fuel n fuel c lg nb).1 = c ∧
        (grow_loop_fuel n fuel c lg nb).2.1 = lg ∧
        (grow_loop_fuel n fuel c lg nb).2.2 = nb ∨
      c < (grow_loop_fuel n fuel c lg nb).1 ∧ lg < n ∧
        GHASH_LIMIT_SHRINK (grow_loop_fuel n fuel c lg nb).2.2 ≤ n) := by
  induction fuel with
  | zero =>
    intro c lg nb hc hfuel hnb hlg
    omega
  | succ fuel ih =>
    intro c lg nb hc hfuel hnb hlg
    rw [grow_loop_fuel]
    dsimp only
    split
    case isTrue hguard =>
      have hc' : c + 1 < GHASH_MAX_SIZE := by
        have := hguard.2
        unfold GHASH_MAX_SIZE at *
        omega
      have h := ih (c + 1) (GHASH_LIMIT_GROW (hashsizes.getD (c + 1) 0))
        (hashsizes.getD (c + 1) 0) hc' (by omega) rfl rfl
      refine ⟨by omega, h.2.1, h.2.2.1, h.2.2.2.1, h.2.2.2.2.1,
        Or.inr ⟨by omega, hguard.1, ?_⟩⟩
      rcases h.2.2.2.2.2 with ⟨hceq, hlgeq, hnbeq⟩ | ⟨hclt, hlt, hle⟩
      · rw [hnbeq]
        calc GHASH_LIMIT_SHRINK (hashsizes.getD (c + 1) 0)
            ≤ GHASH_LIMIT_GROW (hashsizes.getD c 0) :=
              shrink_next_le_grow c (by unfold GHASH_MAX_SIZE at *; omega)
          _ = lg := by rw [← hnb, ← hlg]
          _ ≤ n := Nat.le_of_lt hguard.1
      · exact hle
    case isFalse hguard =>
      refine ⟨Nat.le_refl c, hc, hnb, hlg, ?_, Or.inl ⟨rfl, rfl, rfl⟩⟩
      rcases Nat.lt_or_ge lg n with hlt | hle
      · have : ¬ c < GHASH_MAX_SIZE - 1 := fun hcc => hguard ⟨hlt, hcc⟩
        right
        omega
      · exact Or.inl hle

/-- Specification of the shrink loop under schedule-consistent inputs. -/
theorem shrink_loop_spec (n sm : Nat) :
    ∀ c ls nb, c < GHASH_MAX_SIZE → sm ≤ c →
    nb = hashsizes.getD c 0 → ls = GHASH_LIMIT_SHRINK nb →
    (shrink_loop n sm c ls nb).1 ≤ c ∧
    sm ≤ (shrink_loop n sm c ls nb).1 ∧
    (shrink_loop n sm c ls nb).1 < GHASH_MAX_SIZE ∧
    (shrink_loop n sm c ls nb).2.2
      = hashsizes.getD (shrink_loop n sm c ls nb).1 0 ∧
    (shrink_loop n sm c ls nb).2.1
      = GHASH_LIMIT_SHRINK (shrink_loop n sm c ls nb).2.2 ∧
    ((shrink_loop n sm c ls nb).2.1 ≤ n ∨ (shrink_loop n sm c ls nb).1 = sm) ∧
    ((shrink_loop n sm c ls nb).1 = c ∧
        (shrink_loop n sm c ls nb).2.1 = ls ∧
        (shrink_loop n sm c ls nb).2.2 = nb ∨
      (shrink_loop n sm c ls nb).1 < c ∧
        n ≤ GHASH_LIMIT_GROW (shrink_loop n sm c ls nb).2.2) := by
  intro c
  induction c with
  | zero =>
    intro ls nb hc hsm hnb hls
    rw [shrink_loop]
    exact ⟨Nat.le_refl 0, hsm, hc, hnb, hls, Or.inr (by omega),
      Or.inl ⟨rfl, rfl, rfl⟩⟩
  | succ c ih =>
    intro ls nb hc hsm hnb hls
    rw [shrink_loop]
    dsimp only
    split
    case isTrue hguard =>
      have hc' : c < GHASH_MAX_SIZE := by omega
      have hsm' : sm ≤ c := by omega
      have h := ih (GHASH_LIMIT_SHRINK (hashsizes.getD c 0))
        (hashsizes.getD c 0) hc' hsm' rfl rfl
      refine ⟨by omega, h.2.1, h.2.2.1, h.2.2.2.1, h.2.2.2.2.1,
        h.2.2.2.2.2.1, Or.inr ⟨by omega, ?_⟩⟩
      rcases h.2.2.2.2.2.2 with ⟨hceq, hlseq, hnbeq⟩ | ⟨hlt2, hle⟩
      · rw [hnbeq]
        have hstep : GHASH_LIMIT_SHRINK (hashsizes.getD (c + 1) 0)
            ≤ GHASH_LIMIT_GROW (hashsizes.getD c 0) :=
          shrink_next_le_grow c (by unfold GHASH_MAX_SIZE at *; omega)
        have hn : n < GHASH_LIMIT_SHRINK (hashsizes.getD (c + 1) 0) := by
          rw [← hnb, ← hls]
          exact hguard.1
        omega
      · exact hle
    case isFalse hguard =>
      refine ⟨Nat.le_refl _, hsm, hc, hnb, hls, ?_, Or.inl ⟨rfl, rfl, rfl⟩⟩
      rcases Nat.lt_or_ge n ls with hlt | hle
      · have : ¬ c + 1 > sm := fun hcc => hguard ⟨hlt, hcc⟩
        right
        omega
      · exact Or.inl hle

/-- The shrink loop does not iterate when the count clears the incoming
shrink threshold. -/
theorem shrink_loop_no_iter (n sm c ls nb : Nat) (h : ¬ n < ls) :
    shrink_loop n sm c ls nb = (c, ls, nb) := by
  cases c
  · rw [shrink_loop]
  · rw [shrink_loop]
    split
    case isTrue hguard => exact absurd hguard.1 h
    case isFalse hguard => rfl


/-- `grow_loop_fuel_spec` transported to `grow_loop` (the fuel is exact). -/
theorem grow_loop_spec (n c lg nb : Nat) (hc : c < GHASH_MAX_SIZE)
    (hnb : nb = hashsizes.getD c 0) (hlg : lg = GHASH_LIMIT_GROW nb) :
    c ≤ (grow_loop n c lg nb).1 ∧
    (grow_loop n c lg nb).1 < GHASH_MAX_SIZE ∧
    (grow_loop n c lg nb).2.2 = hashsizes.getD (grow_loop n c lg nb).1 0 ∧
    (grow_loop n c lg nb).2.1 = GHASH_LIMIT_GROW (grow_loop n c lg nb).2.2 ∧
    (n ≤ (grow_loop n c lg nb).2.1 ∨
      (grow_loop n c lg nb).1 = GHASH_MAX_SIZE - 1) ∧
    ((grow_loop n c lg nb).1 = c ∧ (grow_loop n c lg nb).2.1 = lg ∧
        (grow_loop n c lg nb).2.2 = nb ∨
      c < (grow_loop n c lg nb).1 ∧ lg < n ∧
        GHASH_LIMIT_SHRINK (grow_loop n c lg nb).2.2 ≤ n) := by
  unfold grow_loop
  exact grow_loop_fuel_spec n (GHASH_MAX_SIZE - c) c lg nb hc (by omega)
    hnb hlg

/-- Master specification of `ghash_expand_buckets`: from a schedule-consistent
well-formed table it produces a schedule-consistent well-formed table holding
the same entry multiset, whose sizing satisfies the load band for the count
`n` it was asked to accommodate (`f` records whether shrinking was forced). -/
theorem expand_spec (gh : GHash) (n : Nat) (u f : Bool)
    (hs : SizeInv gh) (hw : BucketsWF gh) :
    SizeInv (ghash_expand_buckets gh n u f) ∧
    BandAt (ghash_expand_buckets gh n u f) n f ∧
    BucketsWF (ghash_expand_buckets gh n u f) ∧
    (ghash_expand_buckets gh n u f).buckets.flatten.Perm
      gh.buckets.flatten := by
  obtain ⟨hc, hnb, hsm, hlg, hls, hne⟩ := hs
  obtain ⟨hlen, hplaced⟩ := hw
  obtain ⟨hgle, hglt, hgnb2, hglg2, hgband, hglast⟩ :=
    grow_loop_spec n gh.cursize gh.limit_grow gh.nbuckets hc hnb hlg
  unfold ghash_expand_buckets ghash_resize_buckets
  dsimp only
  split
  case isTrue hguard =>
    exact ⟨⟨hc, hnb, hsm, hlg, hls, hne⟩,
      ⟨Or.inl (Nat.le_of_lt hguard.2.1), Or.inl (Nat.le_of_lt hguard.2.2)⟩,
      ⟨hlen, hplaced⟩, List.Perm.refl _⟩
  case isFalse hguard =>
    cases hfb : f || decide (gh.flag &&& GHASH_FLAG_ALLOW_SHRINK ≠ 0) with
    | false =>
      obtain ⟨hf, hflag⟩ : f = false ∧ gh.flag &&& GHASH_FLAG_ALLOW_SHRINK = 0 := by
        rcases Bool.or_eq_false_iff.mp hfb with ⟨h1, h2⟩
        refine ⟨h1, ?_⟩
        have := of_decide_eq_false h2
        omega
      rw [if_neg Bool.false_ne_true]
      dsimp only
      split
      case isTrue hfin =>
        rcases hglast with ⟨hgc, hglg3, hgnb3⟩ | ⟨hgmove, hlgn, hshk⟩
        · refine ⟨⟨?_, ?_, ?_, ?_, ?_, hne⟩, ⟨hgband, ?_⟩,
            ⟨hlen, hplaced⟩, List.Perm.refl _⟩
          · show (grow_loop n gh.cursize gh.limit_grow gh.nbuckets).1
              < GHASH_MAX_SIZE
            exact hglt
          · show gh.nbuckets = hashsizes.getD
              (grow_loop n gh.cursize gh.limit_grow gh.nbuckets).1 0
            rw [hgc, ← hnb]
          · show (if u = true then
                (grow_loop n gh.cursize gh.limit_grow gh.nbuckets).1
              else gh.size_min) ≤ _
            cases u
            · simpa [hgc] using hsm
            · simp
          · show (grow_loop n gh.cursize gh.limit_grow gh.nbuckets).2.1
              = GHASH_LIMIT_GROW gh.nbuckets
            rw [hglg3, hlg]
          · exact hls
          · exact Or.inr (Or.inl ⟨hflag, hf⟩)
        · exact absurd
            (hashsizes_getD_inj _ _ hglt hc (by rw [← hgnb2, hfin.1, hnb]))
            (by omega)
      case isFalse hfin =>
        have hpos : 0 < (grow_loop n gh.cursize gh.limit_grow gh.nbuckets).2.2 := by
          rw [hgnb2]
          exact hashsizes_pos _ hglt
        refine ⟨⟨hglt, hgnb2, ?_, rfl, rfl, ?_⟩,
          ⟨?_, Or.inr (Or.inl ⟨hflag, hf⟩)⟩,
          ⟨rehash_all_length _ _, rehash_all_placed _ _⟩,
          rehash_all_perm _ hpos _⟩
        · show (if u = true then
              (grow_loop n gh.cursize gh.limit_grow gh.nbuckets).1
            else gh.size_min) ≤ _
          cases u
          · simpa using hsm.trans hgle
          · simp
        · rw [List.isEmpty_eq_false]
          apply List.ne_nil_of_length_pos
          rw [rehash_all_length]
          exact hpos
        · rcases hgband with h | h
          · exact Or.inl (by rw [← hglg2]; exact h)
          · exact Or.inr h
    | true =>
      rw [if_pos rfl]
      rcases hglast with ⟨hgc, hglg3, hgnb3⟩ | ⟨hgmove, hlgn, hshk⟩
      · obtain ⟨hsle, hssm, hslt, hsnb2, hsls2, hsband, hslast⟩ :=
          shrink_loop_spec n gh.size_min
            (grow_loop n gh.cursize gh.limit_grow gh.nbuckets).1
            gh.limit_shrink
            (grow_loop n gh.cursize gh.limit_grow gh.nbuckets).2.2
            hglt (by rw [hgc]; exact hsm) hgnb2 (by rw [hgnb3, ← hls])
        split
        case isTrue hfin =>
          have hseq : (shrink_loop n gh.size_min
              (grow_loop n gh.cursize gh.limit_grow gh.nbuckets).1
              gh.limit_shrink
              (grow_loop n gh.cursize gh.limit_grow gh.nbuckets).2.2).1
              = gh.cursize :=
            hashsizes_getD_inj _ _ hslt hc (by rw [← hsnb2, hfin.1, hnb])
          rcases hslast with ⟨hsc, hsls3, hsnb3⟩ | ⟨hsmove, hsgrow⟩
          · refine ⟨⟨?_, ?_, ?_, ?_, ?_, hne⟩, ⟨?_, ?_⟩,
              ⟨hlen, hplaced⟩, List.Perm.refl _⟩
            · exact hslt
            · show gh.nbuckets = _
              rw [hseq, ← hnb]
            · show (if u = true then _ else gh.size_min) ≤ _
              cases u
              · simpa [hseq] using hsm
              · simp
            · show (grow_loop n gh.cursize gh.limit_grow gh.nbuckets).2.1
                = GHASH_LIMIT_GROW gh.nbuckets
              rw [hglg3, hlg]
            · show (shrink_loop n gh.size_min _ _ _).2.1
                = GHASH_LIMIT_SHRINK gh.nbuckets
              rw [hsls3, hls]
            · rcases hgband with h | h
              · exact Or.inl h
              · refine Or.inr ?_
                show (shrink_loop n gh.size_min _ _ _).1 = GHASH_MAX_SIZE - 1
                rw [hsc, h]
            · rcases hsband with h | h
              · exact Or.inl h
              · refine Or.inr (Or.inr ?_)
                show _ = (if u = true then _ else gh.size_min)
                cases u
                · simpa using h
                · simp
          · exact absurd hseq (by omega)
        case isFalse hfin =>
          have hpos : 0 < (shrink_loop n gh.size_min
              (grow_loop n gh.cursize gh.limit_grow gh.nbuckets).1
              gh.limit_shrink
              (grow_loop n gh.cursize gh.limit_grow gh.nbuckets).2.2).2.2 := by
            rw [hsnb2]
            exact hashsizes_pos _ hslt
          refine ⟨⟨hslt, hsnb2, ?_, rfl, rfl, ?_⟩, ⟨?_, ?_⟩,
            ⟨rehash_all_length _ _, rehash_all_placed _ _⟩,
            rehash_all_perm _ hpos _⟩
          · show (if u = true then _ else gh.size_min) ≤ _
            cases u
            · simpa using hssm
            · simp
          · rw [List.isEmpty_eq_false]
            apply List.ne_nil_of_length_pos
            rw [rehash_all_length]
            exact hpos
          · rcases hslast with ⟨hsc, hsls3, hsnb3⟩ | ⟨hsmove, hsgrow⟩
            · rcases hgband with h | h
              · refine Or.inl ?_
                rw [hsnb3, ← hglg2]
                exact h
              · exact Or.inr (hsc.trans h)
            · exact Or.inl hsgrow
          · rcases hsband with h | h
            · exact Or.inl (by rw [← hsls2]; exact h)
            · refine Or.inr (Or.inr ?_)
              show _ = (if u = true then _ else gh.size_min)
              cases u
              · simpa using h
              · simp
      · have hnolt : ¬ n < gh.limit_shrink := by
          have h1 : gh.limit_shrink ≤ gh.limit_grow := by
            rw [hls, hlg]
            exact limit_shrink_le_limit_grow _
          omega
        rw [shrink_loop_no_iter n gh.size_min _ _ _ hnolt]
        dsimp only
        split
        case isTrue hfin =>
          exact absurd
            (hashsizes_getD_inj _ _ hglt hc (by rw [← hgnb2, hfin.1, hnb]))
            (by omega)
        case isFalse hfin =>
          have hpos : 0 < (grow_loop n gh.cursize gh.limit_grow gh.nbuckets).2.2 := by
            rw [hgnb2]
            exact hashsizes_pos _ hglt
          refine ⟨⟨hglt, hgnb2, ?_, rfl, rfl, ?_⟩, ⟨?_, Or.inl hshk⟩,
            ⟨rehash_all_length _ _, rehash_all_placed _ _⟩,
            rehash_all_perm _ hpos _⟩
          · show (if u = true then _ else gh.size_min) ≤ _
            cases u
            · simpa using hsm.trans hgle
            · simp
          · rw [List.isEmpty_eq_false]
            apply List.ne_nil_of_length_pos
            rw [rehash_all_length]
            exact hpos
          · rcases hgband with h | h
            · exact Or.inl (by rw [← hglg2]; exact h)
            · exact Or.inr h


/-- `ghash_expand_buckets` does not touch the hash callback. -/
theorem expand_hashfp (gh : GHash) (n : Nat) (u f : Bool) :
    (ghash_expand_buckets gh n u f).hashfp = gh.hashfp := by
  unfold ghash_expand_buckets ghash_resize_buckets
  dsimp only
  repeat' split
  all_goals rfl

/-- `ghash_expand_buckets` does not touch the comparison callback. -/
theorem expand_cmpfp (gh : GHash) (n : Nat) (u f : Bool) :
    (ghash_expand_buckets gh n u f).cmpfp = gh.cmpfp := by
  unfold ghash_expand_buckets ghash_resize_buckets
  dsimp only
  repeat' split
  all_goals rfl

/-- `ghash_expand_buckets` does not touch the entry size. -/
theorem expand_entry_size (gh : GHash) (n : Nat) (u f : Bool) :
    (ghash_expand_buckets gh n u f).entry_size = gh.entry_size := by
  unfold ghash_expand_buckets ghash_resize_buckets
  dsimp only
  repeat' split
  all_goals rfl

/-- A table whose sizing satisfies the band for its own entry count
satisfies the band. -/
theorem band_of_bandAt (gh : GHash) (n : Nat) (f : Bool)
    (h : BandAt gh n f) (hn : gh.nentries = n) : Band gh := by
  obtain ⟨h1, h2⟩ := h
  refine ⟨?_, ?_⟩
  · rw [hn]
    exact h1
  · rw [hn]
    rcases h2 with h | ⟨hf, _⟩ | h
    · exact Or.inl h
    · exact Or.inr (Or.inl hf)
    · exact Or.inr (Or.inr h)

/-- Replacing one bucket's chain keeps the bucket array live. -/
theorem isEmpty_set (bs : List (List Entry)) (i : Nat) (c : List Entry) :
    (bs.set i c).isEmpty = bs.isEmpty := by
  cases bs <;> cases i <;> rfl

/-- The removal walk only drops entries, never invents them. -/
theorem chain_remove_first_subset (p : Entry → Bool) (l : List Entry) :
    ∀ x ∈ (chain_remove_first p l).1, x ∈ l := by
  induction l with
  | nil => intro x hx; exact absurd hx (by simp [chain_remove_first])
  | cons e tl ih =>
    intro x hx
    rw [show chain_remove_first p (e :: tl)
        = if p e then (tl, some e)
          else ((e :: (chain_remove_first p tl).1,
            (chain_remove_first p tl).2) : List Entry × Option Entry)
      from rfl] at hx
    rcases hp : p e
    · rw [hp, if_neg Bool.false_ne_true] at hx
      rcases List.mem_cons.mp hx with rfl | hx
      · exact List.mem_cons_self x tl
      · exact List.mem_cons_of_mem e (ih x hx)
    · rw [hp, if_pos rfl] at hx
      exact List.mem_cons_of_mem e hx

/-- Every entry of an in-place overwrite comes from the original chain, or is
the image of an original entry under the overwrite. -/
theorem chain_replace_first_mem (p : Entry → Bool) (f : Entry → Entry)
    (l : List Entry) :
    ∀ x ∈ chain_replace_first p f l, x ∈ l ∨ ∃ y ∈ l, x = f y := by
  induction l with
  | nil => intro x hx; exact absurd hx (by simp [chain_replace_first])
  | cons e tl ih =>
    intro x hx
    rw [show chain_replace_first p f (e :: tl)
        = if p e then f e :: tl else e :: chain_replace_first p f tl
      from rfl] at hx
    rcases hp : p e
    · rw [hp, if_neg Bool.false_ne_true] at hx
      rcases List.mem_cons.mp hx with rfl | hx
      · exact Or.inl (List.mem_cons_self x tl)
      · rcases ih x hx with h | ⟨y, hy, hxy⟩
        · exact Or.inl (List.mem_cons_of_mem e h)
        · exact Or.inr ⟨y, List.mem_cons_of_mem e hy, hxy⟩
    · rw [hp, if_pos rfl] at hx
      rcases List.mem_cons.mp hx with rfl | hx
      · exact Or.inr ⟨e, List.mem_cons_self e tl, rfl⟩
      · exact Or.inl (List.mem_cons_of_mem e hx)

/-- Setting a bucket to a chain of correctly-placed entries preserves
placement. -/
theorem placed_set (nb : Nat) (bs : List (List Entry)) (i : Nat)
    (chain' : List Entry) (hp : PlacedBuckets nb bs)
    (hch : ∀ x ∈ chain', x.hash % nb = i) :
    PlacedBuckets nb (bs.set i chain') := by
  intro j hj e he
  rw [List.length_set] at hj
  by_cases hij : j = i
  · subst hij
    rw [getD_set_self bs j chain' hj] at he
    exact hch e he
  · rw [getD_set_ne bs i chain' j hij] at he
    exact hp j hj e he

/-- Filtering every chain preserves placement. -/
theorem placed_map_filter (nb : Nat) (bs : List (List Entry))
    (q : Entry → Bool) (hp : PlacedBuckets nb bs) :
    PlacedBuckets nb (bs.map (fun chain => chain.filter q)) := by
  intro j hj e he
  rw [List.length_map] at hj
  rw [List.getD_eq_getElem _ _ (by simpa using hj), List.getElem_map] at he
  have he' : e ∈ bs.getD j [] := by
    rw [List.getD_eq_getElem _ _ hj]
    exact List.mem_of_mem_filter he
  exact hp j hj e he'

/-- In a placed table, every entry can be found in the bucket of its hash. -/
theorem mem_bucket_of_flatten (gh : GHash) (hw : BucketsWF gh) (e : Entry)
    (he : e ∈ gh.buckets.flatten) :
    e ∈ gh.buckets.getD (e.hash % gh.nbuckets) [] := by
  obtain ⟨hlen, hplaced⟩ := hw
  rcases List.mem_flatten.mp he with ⟨l, hl, hel⟩
  rcases List.mem_iff_getElem.mp hl with ⟨j, hj, rfl⟩
  have hjd : gh.buckets.getD j [] = gh.buckets[j] :=
    List.getD_eq_getElem _ _ hj
  have hplace := hplaced j hj e (by rw [hjd]; exact hel)
  rw [hplace, hjd]
  exact hel

/-- One mutation-plus-policy step: if the mutated table is schedule-consistent
and well-formed, the resize policy returns a schedule-consistent, well-formed,
banded table with the same entries, callbacks and count. -/
theorem step_spec (gh1 : GHash) (f : Bool) (hs : SizeInv gh1)
    (hw : BucketsWF gh1) :
    SizeInv (ghash_expand_buckets gh1 gh1.nentries false f) ∧
    BucketsWF (ghash_expand_buckets gh1 gh1.nentries false f) ∧
    Band (ghash_expand_buckets gh1 gh1.nentries false f) ∧
    (ghash_expand_buckets gh1 gh1.nentries false f).buckets.flatten.Perm
      gh1.buckets.flatten ∧
    (ghash_expand_buckets gh1 gh1.nentries false f).nentries
      = gh1.nentries ∧
    (ghash_expand_buckets gh1 gh1.nentries false f).hashfp = gh1.hashfp ∧
    (ghash_expand_buckets gh1 gh1.nentries false f).cmpfp = gh1.cmpfp ∧
    (ghash_expand_buckets gh1 gh1.nentries false f).flag = gh1.flag ∧
    (ghash_expand_buckets gh1 gh1.nentries false f).entry_size
      = gh1.entry_size := by
  obtain ⟨h1, h2, h3, h4⟩ := expand_spec gh1 gh1.nentries false f hs hw
  exact ⟨h1, h3, band_of_bandAt _ _ _ h2 (expand_nentries _ _ _ _), h4,
    expand_nentries _ _ _ _, expand_hashfp _ _ _ _, expand_cmpfp _ _ _ _,
    expand_flag _ _ _ _, expand_entry_size _ _ _ _⟩


/-- Mapping over buckets keeps the bucket array live. -/
theorem isEmpty_map (bs : List (List Entry)) (f : List Entry → List Entry) :
    (bs.map f).isEmpty = bs.isEmpty := by
  cases bs <;> rfl

/-- The positive bucket count of a schedule-consistent table. -/
theorem nbuckets_pos (gh : GHash) (hs : SizeInv gh) : 0 < gh.nbuckets := by
  rw [hs.2.1]
  exact hashsizes_pos _ hs.1

/-- The prepend-count-expand tail shared by all insert paths: from a
schedule-consistent well-formed table it yields a schedule-consistent,
well-formed, banded table holding exactly the old entries plus the new one. -/
theorem insert_step_spec (gh : GHash) (e : Entry) (hs : SizeInv gh)
    (hw : BucketsWF gh) :
    SizeInv (ghash_expand_buckets
      { gh with buckets := bucket_prepend gh.buckets (e.hash % gh.nbuckets) e,
                nentries := gh.nentries + 1 }
      (gh.nentries + 1) false false) ∧
    BucketsWF (ghash_expand_buckets
      { gh with buckets := bucket_prepend gh.buckets (e.hash % gh.nbuckets) e,
                nentries := gh.nentries + 1 }
      (gh.nentries + 1) false false) ∧
    Band (ghash_expand_buckets
      { gh with buckets := bucket_prepend gh.buckets (e.hash % gh.nbuckets) e,
                nentries := gh.nentries + 1 }
      (gh.nentries + 1) false false) ∧
    (ghash_expand_buckets
      { gh with buckets := bucket_prepend gh.buckets (e.hash % gh.nbuckets) e,
                nentries := gh.nentries + 1 }
      (gh.nentries + 1) false false).buckets.flatten.Perm
      (e :: gh.buckets.flatten) ∧
    (ghash_expand_buckets
      { gh with buckets := bucket_prepend gh.buckets (e.hash % gh.nbuckets) e,
                nentries := gh.nentries + 1 }
      (gh.nentries + 1) false false).nentries = gh.nentries + 1 ∧
    (ghash_expand_buckets
      { gh with buckets := bucket_prepend gh.buckets (e.hash % gh.nbuckets) e,
                nentries := gh.nentries + 1 }
      (gh.nentries + 1) false false).hashfp = gh.hashfp ∧
    (ghash_expand_buckets
      { gh with buckets := bucket_prepend gh.buckets (e.hash % gh.nbuckets) e,
                nentries := gh.nentries + 1 }
      (gh.nentries + 1) false false).cmpfp = gh.cmpfp := by
  obtain ⟨hc, hnb, hsm, hlg, hls, hne⟩ := hs
  obtain ⟨hlen, hplaced⟩ := hw
  have hs1 : SizeInv { gh with
      buckets := bucket_prepend gh.buckets (e.hash % gh.nbuckets) e,
      nentries := gh.nentries + 1 } := by
    refine ⟨hc, hnb, hsm, hlg, hls, ?_⟩
    show (bucket_prepend gh.buckets (e.hash % gh.nbuckets) e).isEmpty = false
    unfold bucket_prepend
    rw [isEmpty_set]
    exact hne
  have hw1 : BucketsWF { gh with
      buckets := bucket_prepend gh.buckets (e.hash % gh.nbuckets) e,
      nentries := gh.nentries + 1 } := by
    refine ⟨?_, ?_⟩
    · show (bucket_prepend gh.buckets (e.hash % gh.nbuckets) e).length
        = gh.nbuckets
      rw [length_bucket_prepend, hlen]
    · exact placed_bucket_prepend gh.nbuckets gh.buckets e hplaced
  have h := step_spec _ false hs1 hw1
  have hpos : 0 < gh.nbuckets := by
    rw [hnb]
    exact hashsizes_pos _ hc
  have hperm : (bucket_prepend gh.buckets (e.hash % gh.nbuckets)
      e).flatten.Perm (e :: gh.buckets.flatten) := by
    refine flatten_bucket_prepend gh.buckets _ e ?_
    rw [hlen]
    exact Nat.mod_lt _ hpos
  exact ⟨h.1, h.2.1, h.2.2.1, h.2.2.2.1.trans hperm, h.2.2.2.2.1,
    h.2.2.2.2.2.1, h.2.2.2.2.2.2.1⟩

/-- Replacing one bucket chain by correctly-placed entries (and any entry
count) preserves consistency and well-formedness. -/
theorem set_chain_spec (gh : GHash) (i : Nat) (chain' : List Entry)
    (n' : Nat) (hs : SizeInv gh) (hw : BucketsWF gh)
    (hch : ∀ x ∈ chain', x.hash % gh.nbuckets = i) :
    SizeInv { gh with buckets := gh.buckets.set i chain', nentries := n' } ∧
    BucketsWF { gh with buckets := gh.buckets.set i chain',
                        nentries := n' } := by
  obtain ⟨hc, hnb, hsm, hlg, hls, hne⟩ := hs
  obtain ⟨hlen, hplaced⟩ := hw
  refine ⟨⟨hc, hnb, hsm, hlg, hls, ?_⟩, ⟨?_, ?_⟩⟩
  · show (gh.buckets.set i chain').isEmpty = false
    rw [isEmpty_set]
    exact hne
  · show (gh.buckets.set i chain').length = gh.nbuckets
    rw [List.length_set, hlen]
  · exact placed_set gh.nbuckets gh.buckets i chain' hplaced hch


/-- One union-entry step preserves consistency, well-formedness and the
band. -/
theorem union_entry_spec (rev : Bool) (sz : Nat) (gh1 : GHash) (e : Entry)
    (hs : SizeInv gh1) (hw : BucketsWF gh1) (hb : Band gh1) :
    SizeInv (ghash_union_entry rev sz gh1 e) ∧
    BucketsWF (ghash_union_entry rev sz gh1 e) ∧
    Band (ghash_union_entry rev sz gh1 e) := by
  unfold ghash_union_entry
  dsimp only
  split
  · have h := insert_step_spec gh1 (entry_copy Entry.fresh e sz) hs hw
    exact ⟨h.1, h.2.1, h.2.2.1⟩
  · split
    · have hch : ∀ x ∈ chain_replace_first
          (entry_match gh1.cmpfp e.key e.hash)
          (fun e_gh1 => entry_copy e_gh1 e sz)
          (gh1.buckets.getD (ghash_bucket_hash gh1 e.hash) []),
          x.hash % gh1.nbuckets = ghash_bucket_hash gh1 e.hash := by
        intro x hx
        rcases chain_replace_first_mem _ _ _ x hx with hmem | ⟨y, hy, rfl⟩
        · refine hw.2 (ghash_bucket_hash gh1 e.hash) ?_ x hmem
          rw [hw.1]
          exact Nat.mod_lt _ (nbuckets_pos gh1 hs)
        · rfl
      have h := set_chain_spec gh1 (ghash_bucket_hash gh1 e.hash) _
        gh1.nentries hs hw hch
      exact ⟨h.1, h.2, hb⟩
    · exact ⟨hs, hw, hb⟩

/-- One union operand preserves consistency, well-formedness and the band. -/
theorem union_table_spec (rev : Bool) (sz : Nat) (ghn : GHash) :
    ∀ gh1, SizeInv gh1 → BucketsWF gh1 → Band gh1 →
      SizeInv (ghash_union_table rev sz gh1 ghn) ∧
      BucketsWF (ghash_union_table rev sz gh1 ghn) ∧
      Band (ghash_union_table rev sz gh1 ghn) := by
  unfold ghash_union_table
  intro gh1 hs hw hb
  rw [← List.foldl_flatten]
  generalize ghn.buckets.flatten = l
  induction l generalizing gh1 with
  | nil => exact ⟨hs, hw, hb⟩
  | cons e t ih =>
    rw [List.foldl_cons]
    have h := union_entry_spec rev sz gh1 e hs hw hb
    exact ih _ h.1 h.2.1 h.2.2

/-- Union over any operand list preserves consistency, well-formedness and
the band. -/
theorem union_spec (rev : Bool) (sz : Nat) (ops : List GHash) :
    ∀ gh1, SizeInv gh1 → BucketsWF gh1 → Band gh1 →
      SizeInv (ops.foldl (ghash_union_table rev sz) gh1) ∧
      BucketsWF (ops.foldl (ghash_union_table rev sz) gh1) ∧
      Band (ops.foldl (ghash_union_table rev sz) gh1) := by
  induction ops with
  | nil => intro gh1 hs hw hb; exact ⟨hs, hw, hb⟩
  | cons ghn rest ih =>
    intro gh1 hs hw hb
    rw [List.foldl_cons]
    have h := union_table_spec rev sz ghn gh1 hs hw hb
    exact ih _ h.1 h.2.1 h.2.2

/-- The sweep-then-force-shrink tail of intersection and difference: filtering
every chain and installing any entry count, then consulting the policy with
forced shrink, yields a consistent, well-formed, banded table. -/
theorem filter_expand_spec (gh1 : GHash) (q : Entry → Bool) (n' : Nat)
    (hs : SizeInv gh1) (hw : BucketsWF gh1) :
    SizeInv (ghash_expand_buckets
      { gh1 with buckets := gh1.buckets.map (fun chain => chain.filter q),
                 nentries := n' } n' false true) ∧
    BucketsWF (ghash_expand_buckets
      { gh1 with buckets := gh1.buckets.map (fun chain => chain.filter q),
                 nentries := n' } n' false true) ∧
    Band (ghash_expand_buckets
      { gh1 with buckets := gh1.buckets.map (fun chain => chain.filter q),
                 nentries := n' } n' false true) := by
  obtain ⟨hc, hnb, hsm, hlg, hls, hne⟩ := hs
  obtain ⟨hlen, hplaced⟩ := hw
  have hs1 : SizeInv { gh1 with
      buckets := gh1.buckets.map (fun chain => chain.filter q),
      nentries := n' } := by
    refine ⟨hc, hnb, hsm, hlg, hls, ?_⟩
    show (gh1.buckets.map (fun chain => chain.filter q)).isEmpty = false
    rw [isEmpty_map]
    exact hne
  have hw1 : BucketsWF { gh1 with
      buckets := gh1.buckets.map (fun chain => chain.filter q),
      nentries := n' } := by
    refine ⟨?_, ?_⟩
    · show (gh1.buckets.map (fun chain => chain.filter q)).length
        = gh1.nbuckets
      rw [List.length_map, hlen]
    · exact placed_map_filter gh1.nbuckets gh1.buckets q hplaced
  have h := step_spec _ true hs1 hw1
  exact ⟨h.1, h.2.1, h.2.2.1⟩

/-- One intersection operand preserves consistency, well-formedness and the
band. -/
theorem intersection_table_spec (gh1 ghn : GHash) (hs : SizeInv gh1)
    (hw : BucketsWF gh1) :
    SizeInv (ghash_intersection_table gh1 ghn) ∧
    BucketsWF (ghash_intersection_table gh1 ghn) ∧
    Band (ghash_intersection_table gh1 ghn) := by
  unfold ghash_intersection_table
  dsimp only
  exact filter_expand_spec gh1 _ _ hs hw

/-- One difference operand preserves consistency, well-formedness and the
band. -/
theorem difference_table_spec (gh1 ghn : GHash) (hs : SizeInv gh1)
    (hw : BucketsWF gh1) :
    SizeInv (ghash_difference_table gh1 ghn) ∧
    BucketsWF (ghash_difference_table gh1 ghn) ∧
    Band (ghash_difference_table gh1 ghn) := by
  unfold ghash_difference_table
  dsimp only
  exact filter_expand_spec gh1 _ _ hs hw

/-- Intersection over a nonempty operand list ends banded. -/
theorem intersection_spec (ops : List GHash) :
    ∀ gh1, SizeInv gh1 → BucketsWF gh1 → Band gh1 →
      SizeInv (ops.foldl ghash_intersection_table gh1) ∧
      BucketsWF (ops.foldl ghash_intersection_table gh1) ∧
      Band (ops.foldl ghash_intersection_table gh1) := by
  induction ops with
  | nil => intro gh1 hs hw hb; exact ⟨hs, hw, hb⟩
  | cons ghn rest ih =>
    intro gh1 hs hw _
    rw [List.foldl_cons]
    have h := intersection_table_spec gh1 ghn hs hw
    exact ih _ h.1 h.2.1 h.2.2

/-- Difference over a nonempty operand list ends banded. -/
theorem difference_spec (ops : List GHash) :
    ∀ gh1, SizeInv gh1 → BucketsWF gh1 → Band gh1 →
      SizeInv (ops.foldl ghash_difference_table gh1) ∧
      BucketsWF (ops.foldl ghash_difference_table gh1) ∧
      Band (ops.foldl ghash_difference_table gh1) := by
  induction ops with
  | nil => intro gh1 hs hw hb; exact ⟨hs, hw, hb⟩
  | cons ghn rest ih =>
    intro gh1 hs hw _
    rw [List.foldl_cons]
    have h := difference_table_spec gh1 ghn hs hw
    exact ih _ h.1 h.2.1 h.2.2

/-- One second-pass step of symmetric difference preserves the destination's
consistency and well-formedness. -/
theorem pass2_entry_inv (st : SymDiffPass2) (e : Entry)
    (hs : SizeInv st.gh1) (hw : BucketsWF st.gh1) :
    SizeInv (symdiff_pass2_entry st e).gh1 ∧
    BucketsWF (symdiff_pass2_entry st e).gh1 := by
  unfold symdiff_pass2_entry
  dsimp only
  split
  · have hch : ∀ x ∈ (chain_remove_first
        (fun e_curr => e_curr.hash == e.hash &&
          (st.keys.cmpfp e_curr.key e.key == false))
        (st.gh1.buckets.getD (ghash_bucket_hash st.gh1 e.hash) [])).1,
        x.hash % st.gh1.nbuckets = ghash_bucket_hash st.gh1 e.hash := by
      intro x hx
      have hmem := chain_remove_first_subset _ _ x hx
      refine hw.2 (ghash_bucket_hash st.gh1 e.hash) ?_ x hmem
      rw [hw.1]
      exact Nat.mod_lt _ (nbuckets_pos st.gh1 hs)
    exact set_chain_spec st.gh1 (ghash_bucket_hash st.gh1 e.hash) _
      (st.gh1.nentries - 1) hs hw hch
  · exact ⟨hs, hw⟩

/-- The second pass of symmetric difference preserves the destination's
consistency and well-formedness. -/
theorem pass2_fold_inv (bs : List (List Entry)) :
    ∀ st : SymDiffPass2, SizeInv st.gh1 → BucketsWF st.gh1 →
      SizeInv ((bs.foldl (fun st chain =>
          chain.foldl symdiff_pass2_entry st) st)).gh1 ∧
      BucketsWF ((bs.foldl (fun st chain =>
          chain.foldl symdiff_pass2_entry st) st)).gh1 := by
  intro st hs hw
  rw [← List.foldl_flatten]
  generalize bs.flatten = l
  induction l generalizing st with
  | nil => exact ⟨hs, hw⟩
  | cons e t ih =>
    rw [List.foldl_cons]
    have h := pass2_entry_inv st e hs hw
    exact ih _ h.1 h.2

/-- One final-pass step of symmetric difference preserves the destination's
consistency and well-formedness. -/
theorem pass3_entry_inv (sz : Nat) (gh1 : GHash) (e : Entry)
    (hs : SizeInv gh1) (hw : BucketsWF gh1) :
    SizeInv (symdiff_pass3_entry sz gh1 e) ∧
    BucketsWF (symdiff_pass3_entry sz gh1 e) := by
  unfold symdiff_pass3_entry
  dsimp only
  split
  · have h := insert_step_spec gh1 (entry_copy Entry.fresh e sz) hs hw
    exact ⟨h.1, h.2.1⟩
  · exact ⟨hs, hw⟩

/-- The final pass of symmetric difference preserves the destination's
consistency and well-formedness. -/
theorem pass3_fold_inv (sz : Nat) (bs : List (List Entry)) :
    ∀ gh1, SizeInv gh1 → BucketsWF gh1 →
      SizeInv (bs.foldl (fun g chain =>
        chain.foldl (symdiff_pass3_entry sz) g) gh1) ∧
      BucketsWF (bs.foldl (fun g chain =>
        chain.foldl (symdiff_pass3_entry sz) g) gh1) := by
  intro gh1 hs hw
  rw [← List.foldl_flatten]
  generalize bs.flatten = l
  induction l generalizing gh1 with
  | nil => exact ⟨hs, hw⟩
  | cons e t ih =>
    rw [List.foldl_cons]
    have h := pass3_entry_inv sz gh1 e hs hw
    exact ih _ h.1 h.2

/-- The tail of symmetric difference: running the final insertion pass from a
consistent destination and then consulting the policy with forced shrink
yields a banded table. -/
theorem symdiff_tail_band (sz : Nat) (st2 : SymDiffPass2)
    (hs : SizeInv st2.gh1) (hw : BucketsWF st2.gh1) :
    Band (ghash_expand_buckets
      (st2.keys.buckets.foldl
        (fun g chain => chain.foldl (symdiff_pass3_entry sz) g) st2.gh1)
      (st2.keys.buckets.foldl
        (fun g chain => chain.foldl (symdiff_pass3_entry sz) g)
        st2.gh1).nentries
      false true) := by
  have h3 := pass3_fold_inv sz st2.keys.buckets st2.gh1 hs hw
  exact (step_spec _ true h3.1 h3.2).2.2.1

/-- Symmetric difference leaves its destination banded (the final forced
shrink re-establishes the band whatever the passes did to the count). -/
theorem symdiff_band (gh : GHash) (ops : List GHash) (hs : SizeInv gh)
    (hw : BucketsWF gh) :
    Band (ghash_symmetric_difference gh ops).1 := by
  unfold ghash_symmetric_difference
  dsimp only
  refine symdiff_tail_band _ _ ?_ ?_
  · exact (pass2_fold_inv _ _ hs hw).1
  · exact (pass2_fold_inv _ _ hs hw).2


/-- `BLI_ghash_insert` leaves the table banded. -/
theorem insert_band (gh : GHash) (k : Nat) (v : Option Nat)
    (hs : SizeInv gh) (hw : BucketsWF gh) :
    Band (BLI_ghash_insert gh k v) := by
  unfold BLI_ghash_insert ghash_insert ghash_insert_ex
  dsimp only
  exact (insert_step_spec gh ⟨ghash_keyhash gh k, k, v⟩ hs hw).2.2.1

/-- `ghash_insert_safe` (the `add`/`reinsert` body) leaves the table
banded. -/
theorem insert_safe_band (gh : GHash) (k : Nat) (v : Option Nat)
    (ov kf vf : Bool) (hs : SizeInv gh) (hw : BucketsWF gh) (hb : Band gh) :
    Band (ghash_insert_safe gh k v ov kf vf).1 := by
  unfold ghash_insert_safe ghash_insert_ex
  dsimp only
  split
  · split
    · exact hb
    · exact hb
  · exact (insert_step_spec gh ⟨ghash_keyhash gh k, k, v⟩ hs hw).2.2.1

/-- `BLI_ghash_add` leaves the table banded. -/
theorem add_band (gh : GHash) (k : Nat) (v : Option Nat)
    (hs : SizeInv gh) (hw : BucketsWF gh) (hb : Band gh) :
    Band (BLI_ghash_add gh k v).1 := by
  unfold BLI_ghash_add
  dsimp only
  exact insert_safe_band gh k v false false false hs hw hb

/-- `BLI_ghash_reinsert` leaves the table banded. -/
theorem reinsert_band (gh : GHash) (k : Nat) (v : Option Nat) (kf vf : Bool)
    (hs : SizeInv gh) (hw : BucketsWF gh) (hb : Band gh) :
    Band (BLI_ghash_reinsert gh k v kf vf).1 := by
  unfold BLI_ghash_reinsert
  exact insert_safe_band gh k v true kf vf hs hw hb

/-- `ghash_remove_ex` at the bucket of its hash leaves the table banded. -/
theorem remove_ex_band (gh : GHash) (k hsh : Nat)
    (hs : SizeInv gh) (hw : BucketsWF gh) (hb : Band gh) :
    Band (ghash_remove_ex gh k hsh (ghash_bucket_hash gh hsh)).1 := by
  unfold ghash_remove_ex
  dsimp only
  split
  · have hch : ∀ x ∈ (chain_remove_first (entry_match gh.cmpfp k hsh)
        (gh.buckets.getD (ghash_bucket_hash gh hsh) [])).1,
        x.hash % gh.nbuckets = ghash_bucket_hash gh hsh := by
      intro x hx
      have hmem := chain_remove_first_subset _ _ x hx
      refine hw.2 (ghash_bucket_hash gh hsh) ?_ x hmem
      rw [hw.1]
      exact Nat.mod_lt _ (nbuckets_pos gh hs)
    have h := set_chain_spec gh (ghash_bucket_hash gh hsh) _
      (gh.nentries - 1) hs hw hch
    exact (step_spec _ false h.1 h.2).2.2.1
  · exact hb

/-- `BLI_ghash_remove` leaves the table banded. -/
theorem remove_band (gh : GHash) (k : Nat)
    (hs : SizeInv gh) (hw : BucketsWF gh) (hb : Band gh) :
    Band (BLI_ghash_remove gh k).1 := by
  unfold BLI_ghash_remove
  dsimp only
  exact remove_ex_band gh k (ghash_keyhash gh k) hs hw hb

/-- `BLI_ghash_popkey` leaves the table banded. -/
theorem popkey_band (gh : GHash) (k : Nat)
    (hs : SizeInv gh) (hw : BucketsWF gh) (hb : Band gh) :
    Band (BLI_ghash_popkey gh k).1 := by
  unfold BLI_ghash_popkey
  dsimp only
  split
  · exact remove_ex_band gh k (ghash_keyhash gh k) hs hw hb
  · exact remove_ex_band gh k (ghash_keyhash gh k) hs hw hb

/-- `BLI_ghash_clear_ex` leaves the table banded: the entry count is zero
(below any grow threshold) and the flags word is reset, which disables
shrinking. -/
theorem clear_band (gh : GHash) (r : Nat) :
    Band (BLI_ghash_clear_ex gh r) := by
  unfold BLI_ghash_clear_ex ghash_buckets_reset
  constructor
  · left
    rw [expand_nentries]
    exact Nat.zero_le _
  · right
    left
    rw [expand_flag]
    simp [GHASH_FLAG_ALLOW_SHRINK]

/-- `ghash_union` leaves the destination banded. -/
theorem union_band (rev : Bool) (gh : GHash) (ops : List GHash)
    (hs : SizeInv gh) (hw : BucketsWF gh) (hb : Band gh) :
    Band (ghash_union rev gh ops) := by
  unfold ghash_union
  exact (union_spec rev gh.entry_size ops gh hs hw hb).2.2

/-- `ghash_intersection` leaves the destination banded. -/
theorem intersection_band (gh : GHash) (ops : List GHash)
    (hs : SizeInv gh) (hw : BucketsWF gh) (hb : Band gh) :
    Band (ghash_intersection gh ops) := by
  unfold ghash_intersection
  exact (intersection_spec ops gh hs hw hb).2.2

/-- `ghash_difference` leaves the destination banded. -/
theorem difference_band (gh : GHash) (ops : List GHash)
    (hs : SizeInv gh) (hw : BucketsWF gh) (hb : Band gh) :
    Band (ghash_difference gh ops) := by
  unfold ghash_difference
  exact (difference_spec ops gh hs hw hb).2.2

/-- C5 (amended): immediately after every public mutation that sizes the
table by its live entry count — insert, add, reinsert, remove, pop, clear,
and each set-algebra operation — the load-factor band holds: `nentries`
is at most `limit_grow` unless the table sits at the top schedule step,
and at least `limit_shrink` unless `GHASH_FLAG_ALLOW_SHRINK` is off or the
table sits at its floor. `BLI_ghash_reserve` is excluded: it sizes the
table for the reserved count, not the live count, and violates the band
(see the counterexample). -/
theorem C5_band_after_mutations (gh gh2 : GHash) (rest : List GHash)
    (key : Nat) (val : Option Nat) (kf vf : Bool) (r : Nat) (rev : Bool)
    (hs : SizeInv gh) (hw : BucketsWF gh) (hb : Band gh) :
    Band (BLI_ghash_insert gh key val) ∧
    Band (BLI_ghash_add gh key val).1 ∧
    Band (BLI_ghash_reinsert gh key val kf vf).1 ∧
    Band (BLI_ghash_remove gh key).1 ∧
    Band (BLI_ghash_popkey gh key).1 ∧
    Band (BLI_ghash_clear_ex gh r) ∧
    Band (ghash_union rev gh (gh2 :: rest)) ∧
    Band (ghash_intersection gh (gh2 :: rest)) ∧
    Band (ghash_difference gh (gh2 :: rest)) ∧
    Band (ghash_symmetric_difference gh (gh2 :: rest)).1 :=
  ⟨insert_band gh key val hs hw,
   add_band gh key val hs hw hb,
   reinsert_band gh key val kf vf hs hw hb,
   remove_band gh key hs hw hb,
   popkey_band gh key hs hw hb,
   clear_band gh r,
   union_band rev gh (gh2 :: rest) hs hw hb,
   intersection_band gh (gh2 :: rest) hs hw hb,
   difference_band gh (gh2 :: rest) hs hw hb,
   symdiff_band gh (gh2 :: rest) hs hw⟩

/-- The band theorem instantiated on the concrete scenario-S4 tables. -/
theorem C5_band_after_mutations_witness :
    SizeInv mapA ∧ BucketsWF mapA ∧ Band mapA ∧
    (Band (BLI_ghash_insert mapA 5 (some 7)) ∧
     Band (BLI_ghash_add mapA 5 (some 7)).1 ∧
     Band (BLI_ghash_reinsert mapA 5 (some 7) true true).1 ∧
     Band (BLI_ghash_remove mapA 5).1 ∧
     Band (BLI_ghash_popkey mapA 5).1 ∧
     Band (BLI_ghash_clear_ex mapA 0) ∧
     Band (ghash_union false mapA (mapB :: [])) ∧
     Band (ghash_intersection mapA (mapB :: [])) ∧
     Band (ghash_difference mapA (mapB :: [])) ∧
     Band (ghash_symmetric_difference mapA (mapB :: [])).1) :=
  ⟨by decide, by decide, by decide,
   C5_band_after_mutations mapA mapB [] 5 (some 7) true true 0 false
     (by decide) (by decide) (by decide)⟩


/-- Replacing the first match of a chain by a still-matching entry commutes
with the first-match search. -/
theorem find_chain_replace (p : Entry → Bool) (f : Entry → Entry)
    (hf : ∀ e, p e = true → p (f e) = true) (l : List Entry) :
    (chain_replace_first p f l).find? p = (l.find? p).map f := by
  induction l with
  | nil => rfl
  | cons e tl ih =>
    unfold chain_replace_first
    by_cases hp : p e = true
    · rw [if_pos hp, List.find?_cons_of_pos _ (hf e hp),
        List.find?_cons_of_pos _ hp]
      rfl
    · rw [if_neg hp, List.find?_cons_of_neg _ hp, List.find?_cons_of_neg _ hp]
      exact ih

/-- An entry of a bucket within range belongs to the flattened table. -/
theorem mem_flatten_of_bucket (gh : GHash) (i : Nat)
    (hi : i < gh.buckets.length) (x : Entry)
    (hx : x ∈ gh.buckets.getD i []) : x ∈ gh.buckets.flatten := by
  refine List.mem_flatten.mpr ⟨gh.buckets.getD i [], ?_, hx⟩
  rw [List.getD_eq_getElem _ _ hi]
  exact List.getElem_mem hi

/-- In a consistent, well-formed table, lookup returns the unique matching
entry: placement forces every matching entry into the searched bucket. -/
theorem lookup_unique (gh : GHash) (k : Nat) (e : Entry)
    (cf : Nat → Nat → Bool) (hsh : Nat)
    (hcf : gh.cmpfp = cf) (hkh : ghash_keyhash gh k = hsh)
    (hs : SizeInv gh) (hw : BucketsWF gh)
    (hmem : e ∈ gh.buckets.flatten)
    (hpe : entry_match cf k hsh e = true)
    (hu : ∀ x ∈ gh.buckets.flatten, entry_match cf k hsh x = true → x = e) :
    ghash_lookup_entry gh k = some e := by
  subst hcf
  subst hkh
  unfold ghash_lookup_entry ghash_lookup_entry_ex
  rw [chain_lookup_eq_find]
  have hlt : ghash_bucket_hash gh (ghash_keyhash gh k)
      < gh.buckets.length := by
    rw [hw.1]
    exact Nat.mod_lt _ (nbuckets_pos gh hs)
  have hhash : e.hash = ghash_keyhash gh k := by
    have h1 := hpe
    unfold entry_match at h1
    simp only [Bool.and_eq_true, beq_iff_eq] at h1
    exact h1.1
  have hbe : e ∈ gh.buckets.getD
      (ghash_bucket_hash gh (ghash_keyhash gh k)) [] := by
    have h2 := mem_bucket_of_flatten gh hw e hmem
    rw [hhash] at h2
    exact h2
  cases hfind : (gh.buckets.getD (ghash_bucket_hash gh (ghash_keyhash gh k))
      []).find? (entry_match gh.cmpfp k (ghash_keyhash gh k)) with
  | none => exact absurd hpe (List.find?_eq_none.mp hfind e hbe)
  | some x =>
    have hxmem := List.mem_of_find?_eq_some hfind
    have hxp := List.find?_some hfind
    have hxflat := mem_flatten_of_bucket gh _ hlt x hxmem
    rw [hu x hxflat hxp]

/-- When lookup misses, no entry of the whole table matches: a matching
entry's cached hash equals the searched hash, so placement would have put it
in the searched bucket. -/
theorem lookup_none_no_match (gh : GHash) (k : Nat)
    (hw : BucketsWF gh)
    (hnone : ghash_lookup_entry gh k = none) :
    ∀ x ∈ gh.buckets.flatten,
      entry_match gh.cmpfp k (ghash_keyhash gh k) x = false := by
  intro x hx
  cases hq : entry_match gh.cmpfp k (ghash_keyhash gh k) x with
  | false => rfl
  | true =>
    have hhash : x.hash = ghash_keyhash gh k := by
      have h1 := hq
      unfold entry_match at h1
      simp only [Bool.and_eq_true, beq_iff_eq] at h1
      exact h1.1
    have hbx : x ∈ gh.buckets.getD
        (ghash_bucket_hash gh (ghash_keyhash gh k)) [] := by
      have h2 := mem_bucket_of_flatten gh hw x hx
      rw [hhash] at h2
      exact h2
    unfold ghash_lookup_entry ghash_lookup_entry_ex at hnone
    rw [chain_lookup_eq_find] at hnone
    exact absurd hq (List.find?_eq_none.mp hnone x hbx)

/-- After the in-place overwrite of the found entry, lookup returns the new
value: the overwritten entry sits where the first match was and still
matches. -/
theorem replace_lookup (gh : GHash) (k : Nat) (v : Option Nat) (e : Entry)
    (hrefl : gh.cmpfp k k = false) (hs : SizeInv gh) (hw : BucketsWF gh)
    (hfound : ghash_lookup_entry gh k = some e) :
    BLI_ghash_lookup
      { gh with buckets := (gh.buckets.set
          (ghash_bucket_hash gh (ghash_keyhash gh k))
          (chain_replace_first
            (entry_match gh.cmpfp k (ghash_keyhash gh k))
            (fun e' => { e' with key := k, val := v })
            (gh.buckets.getD
              (ghash_bucket_hash gh (ghash_keyhash gh k)) []))) }
      k = v := by
  have hlt : ghash_bucket_hash gh (ghash_keyhash gh k)
      < gh.buckets.length := by
    rw [hw.1]
    exact Nat.mod_lt _ (nbuckets_pos gh hs)
  have hf : ∀ e', entry_match gh.cmpfp k (ghash_keyhash gh k) e' = true →
      entry_match gh.cmpfp k (ghash_keyhash gh k)
        { e' with key := k, val := v } = true := by
    intro e' hp
    unfold entry_match at hp ⊢
    simp only [Bool.and_eq_true, beq_iff_eq] at hp
    dsimp only
    rw [hrefl]
    simp [hp.1]
  have hfind : (gh.buckets.getD (ghash_bucket_hash gh (ghash_keyhash gh k))
      []).find? (entry_match gh.cmpfp k (ghash_keyhash gh k)) = some e := by
    have h1 := hfound
    unfold ghash_lookup_entry ghash_lookup_entry_ex at h1
    rw [chain_lookup_eq_find] at h1
    exact h1
  show (match chain_lookup gh.cmpfp k (ghash_keyhash gh k)
      ((gh.buckets.set (ghash_bucket_hash gh (ghash_keyhash gh k))
        (chain_replace_first (entry_match gh.cmpfp k (ghash_keyhash gh k))
          (fun e' => { e' with key := k, val := v })
          (gh.buckets.getD
            (ghash_bucket_hash gh (ghash_keyhash gh k)) []))).getD
        (ghash_bucket_hash gh (ghash_keyhash gh k)) []) with
    | some e' => e'.val
    | none => none) = v
  rw [getD_set_self _ _ _ hlt, chain_lookup_eq_find,
    find_chain_replace _ _ hf, hfind]
  rfl

/-- After inserting a key no entry of the table matched, lookup returns the
inserted value, through any resize the insert triggered. -/
theorem insert_ex_lookup (gh : GHash) (k : Nat) (v : Option Nat)
    (hrefl : gh.cmpfp k k = false) (hs : SizeInv gh) (hw : BucketsWF gh)
    (hnm : ∀ x ∈ gh.buckets.flatten,
      entry_match gh.cmpfp k (ghash_keyhash gh k) x = false) :
    BLI_ghash_lookup (ghash_insert_ex gh k v (ghash_keyhash gh k)
      (ghash_bucket_hash gh (ghash_keyhash gh k))) k = v := by
  have h := insert_step_spec gh ⟨ghash_keyhash gh k, k, v⟩ hs hw
  have hsr : SizeInv (ghash_insert_ex gh k v (ghash_keyhash gh k)
      (ghash_bucket_hash gh (ghash_keyhash gh k))) := h.1
  have hwr : BucketsWF (ghash_insert_ex gh k v (ghash_keyhash gh k)
      (ghash_bucket_hash gh (ghash_keyhash gh k))) := h.2.1
  have hperm : (ghash_insert_ex gh k v (ghash_keyhash gh k)
      (ghash_bucket_hash gh (ghash_keyhash gh k))).buckets.flatten.Perm
      ((⟨ghash_keyhash gh k, k, v⟩ : Entry) :: gh.buckets.flatten) :=
    h.2.2.2.1
  have hhf : (ghash_insert_ex gh k v (ghash_keyhash gh k)
      (ghash_bucket_hash gh (ghash_keyhash gh k))).hashfp = gh.hashfp :=
    h.2.2.2.2.2.1
  have hcf : (ghash_insert_ex gh k v (ghash_keyhash gh k)
      (ghash_bucket_hash gh (ghash_keyhash gh k))).cmpfp = gh.cmpfp :=
    h.2.2.2.2.2.2
  have hkh : ghash_keyhash (ghash_insert_ex gh k v (ghash_keyhash gh k)
      (ghash_bucket_hash gh (ghash_keyhash gh k))) k
      = ghash_keyhash gh k := congrArg (fun f => f k) hhf
  have hlu : ghash_lookup_entry (ghash_insert_ex gh k v (ghash_keyhash gh k)
      (ghash_bucket_hash gh (ghash_keyhash gh k))) k
      = some ⟨ghash_keyhash gh k, k, v⟩ := by
    refine lookup_unique _ k _ gh.cmpfp (ghash_keyhash gh k) hcf hkh hsr hwr
      ?_ ?_ ?_
    · exact hperm.mem_iff.mpr (List.mem_cons_self _ _)
    · unfold entry_match
      dsimp only
      rw [hrefl]
      simp
    · intro x hx hxp
      rcases List.mem_cons.mp (hperm.mem_iff.mp hx) with h1 | h2
      · exact h1
      · have hq := hnm x h2
        rw [hxp] at hq
        exact Bool.noConfusion hq
  unfold BLI_ghash_lookup
  rw [hlu]


/-- C7: for a table without duplicate keys (at most one stored entry matches
the key under the cached hash and `cmpfp`, with `cmpfp` recognising the key as
equal to itself): when the key is already present, `BLI_ghash_reinsert`
overwrites the existing entry in place, hands the old key and old value to
the supplied free callbacks, returns `false` and leaves `nentries` unchanged;
when it is absent it inserts a new entry and returns `true`. In both cases a
subsequent lookup of the key returns the new value. -/
theorem C7_reinsert_semantics (gh : GHash) (k : Nat) (v : Option Nat)
    (kf vf : Bool)
    (hrefl : gh.cmpfp k k = false)
    (hs : SizeInv gh) (hw : BucketsWF gh)
    (hnodup : ∀ x ∈ gh.buckets.flatten, ∀ y ∈ gh.buckets.flatten,
      entry_match gh.cmpfp k (ghash_keyhash gh k) x = true →
      entry_match gh.cmpfp k (ghash_keyhash gh k) y = true → x = y) :
    (∀ e, ghash_lookup_entry gh k = some e →
      (BLI_ghash_reinsert gh k v kf vf).2.1 = false ∧
      (BLI_ghash_reinsert gh k v kf vf).1.nentries = gh.nentries ∧
      (BLI_ghash_reinsert gh k v kf vf).2.2.1
        = (if kf then [e.key] else []) ∧
      (BLI_ghash_reinsert gh k v kf vf).2.2.2
        = (if vf then [e.val] else []) ∧
      BLI_ghash_lookup (BLI_ghash_reinsert gh k v kf vf).1 k = v) ∧
    (ghash_lookup_entry gh k = none →
      (BLI_ghash_reinsert gh k v kf vf).2.1 = true ∧
      (BLI_ghash_reinsert gh k v kf vf).1.nentries = gh.nentries + 1 ∧
      BLI_ghash_lookup (BLI_ghash_reinsert gh k v kf vf).1 k = v) := by
  constructor
  · intro e hfound
    have hfe : ghash_lookup_entry_ex gh k (ghash_keyhash gh k)
        (ghash_bucket_hash gh (ghash_keyhash gh k)) = some e := hfound
    unfold BLI_ghash_reinsert ghash_insert_safe
    dsimp only
    rw [hfe]
    dsimp only
    rw [if_pos rfl]
    refine ⟨rfl, rfl, rfl, rfl, ?_⟩
    exact replace_lookup gh k v e hrefl hs hw hfound
  · intro hnone
    have hne : ghash_lookup_entry_ex gh k (ghash_keyhash gh k)
        (ghash_bucket_hash gh (ghash_keyhash gh k)) = none := hnone
    have hnm := lookup_none_no_match gh k hw hnone
    unfold BLI_ghash_reinsert ghash_insert_safe
    dsimp only
    rw [hne]
    dsimp only
    refine ⟨rfl, ?_, ?_⟩
    · exact (insert_step_spec gh ⟨ghash_keyhash gh k, k, v⟩ hs hw).2.2.2.2.1
    · exact insert_ex_lookup gh k v hrefl hs hw hnm

/-- The reinsert theorem instantiated on the concrete scenario-S4 table: key 2
of A = {1→100, 2→101} is overwritten with 55 in place. -/
theorem C7_reinsert_semantics_witness :
    mapA.cmpfp 2 2 = false ∧ SizeInv mapA ∧ BucketsWF mapA ∧
    (∀ x ∈ mapA.buckets.flatten, ∀ y ∈ mapA.buckets.flatten,
      entry_match mapA.cmpfp 2 (ghash_keyhash mapA 2) x = true →
      entry_match mapA.cmpfp 2 (ghash_keyhash mapA 2) y = true → x = y) ∧
    ghash_lookup_entry mapA 2 = some ⟨2, 2, some 101⟩ ∧
    ((BLI_ghash_reinsert mapA 2 (some 55) true true).2.1 = false ∧
     (BLI_ghash_reinsert mapA 2 (some 55) true true).1.nentries
       = mapA.nentries ∧
     (BLI_ghash_reinsert mapA 2 (some 55) true true).2.2.1
       = (if true then [(⟨2, 2, some 101⟩ : Entry).key] else []) ∧
     (BLI_ghash_reinsert mapA 2 (some 55) true true).2.2.2
       = (if true then [(⟨2, 2, some 101⟩ : Entry).val] else []) ∧
     BLI_ghash_lookup (BLI_ghash_reinsert mapA 2 (some 55) true true).1 2
       = some 55) :=
  ⟨by decide, by decide, by decide, by decide, by decide,
   (C7_reinsert_semantics mapA 2 (some 55) true true (by decide) (by decide)
     (by decide) (by decide)).1 ⟨2, 2, some 101⟩ (by decide)⟩

end BLIGhash
